import Mathlib

/-!
Verification development for the realtime-trading-terminal data pipeline.

The pipeline under study (src/src/fetch.py, src/src/transform.py,
src/app/callbacks.py) is embedded shallowly:

* pandas cells are modelled by `EVal`, an exact-rational version of IEEE
  doubles restricted to the operations the pipeline performs (NaN marks a
  pandas-missing value; division by zero yields signed infinities exactly as
  numpy float division does);
* a tidy frame is a `Table`: a list of rows plus presence flags for the three
  derived columns (`daily_return`, `cum_return`, `vol_{w}d_ann`);
* `df.sort_values(["ticker", "date"])` is modelled by a deterministic stable
  sort on the (ticker, date) key;
* `groupby("ticker")` operations act on contiguous runs, which is faithful
  because both transforms sort by (ticker, date) first.
-/

/-- Extended value: an exact-rational model of the IEEE-double cells that the
pandas pipeline manipulates.  `nan` doubles as the pandas missing value. -/
inductive EVal : Type where
  | num (q : ℚ)
  | pinf
  | ninf
  | nan
deriving DecidableEq

namespace EVal

/-- IEEE addition on `EVal` (exact on finite values). -/
def add : EVal → EVal → EVal
  | num a, num b => num (a + b)
  | nan, _ => nan
  | _, nan => nan
  | pinf, ninf => nan
  | ninf, pinf => nan
  | pinf, _ => pinf
  | _, pinf => pinf
  | ninf, _ => ninf
  | _, ninf => ninf

/-- IEEE subtraction on `EVal` (exact on finite values). -/
def sub : EVal → EVal → EVal
  | num a, num b => num (a - b)
  | nan, _ => nan
  | _, nan => nan
  | pinf, pinf => nan
  | ninf, ninf => nan
  | pinf, _ => pinf
  | _, pinf => ninf
  | ninf, _ => ninf
  | _, ninf => pinf

/-- IEEE multiplication on `EVal` (exact on finite values, `inf * 0 = nan`). -/
def mul : EVal → EVal → EVal
  | num a, num b => num (a * b)
  | nan, _ => nan
  | _, nan => nan
  | pinf, pinf => pinf
  | pinf, ninf => ninf
  | ninf, pinf => ninf
  | ninf, ninf => pinf
  | pinf, num b => if 0 < b then pinf else if b < 0 then ninf else nan
  | num a, pinf => if 0 < a then pinf else if a < 0 then ninf else nan
  | ninf, num b => if 0 < b then ninf else if b < 0 then pinf else nan
  | num a, ninf => if 0 < a then ninf else if a < 0 then pinf else nan

/-- Is the value a finite number (neither infinite nor missing)? -/
def isNum : EVal → Bool
  | num _ => true
  | _ => false

/-- The rational payload of a finite value (junk `0` otherwise). -/
def toQ : EVal → ℚ
  | num q => q
  | _ => 0

end EVal

/-- `close[i] / close[i-1] - 1`, exactly as numpy float division behaves in
`Series.pct_change`: a zero previous close gives a signed infinity (or NaN for
`0 / 0`), otherwise the exact rational. -/
def pctChange (prev cur : ℚ) : EVal :=
  if prev = 0 then
    if 0 < cur then EVal.pinf else if cur < 0 then EVal.ninf else EVal.nan
  else EVal.num (cur / prev - 1)

/-- One row of the tidy frame produced by `download_history_tidy` and consumed
by the transforms.  The three derived cells are meaningful only when the
owning `Table`'s presence flag for that column is true. -/
structure Row : Type where
  date : Int
  ticker : String
  open_ : ℚ
  high : ℚ
  low : ℚ
  close : ℚ
  volume : Int
  daily_return : EVal
  cum_return : EVal
  vol_var : EVal
deriving DecidableEq

instance : Inhabited Row :=
  ⟨{ date := 0, ticker := "", open_ := 0, high := 0, low := 0, close := 0,
     volume := 0, daily_return := EVal.nan, cum_return := EVal.nan,
     vol_var := EVal.nan }⟩

/-- A tidy frame: rows plus column-presence flags for the derived columns. -/
structure Table : Type where
  rows : List Row
  has_daily_return : Bool
  has_cum_return : Bool
  has_vol : Bool
deriving DecidableEq

/-- Lexicographic strict order on character lists by code point: the order in
which pandas sorts the string `ticker` column. -/
def listLT : List Char → List Char → Bool
  | [], [] => false
  | [], _ :: _ => true
  | _ :: _, [] => false
  | a :: as, b :: bs =>
    if a.toNat < b.toNat then true
    else if b.toNat < a.toNat then false
    else listLT as bs

theorem char_eq_of_toNat_eq {a b : Char} (h : a.toNat = b.toNat) : a = b :=
  Char.ext (UInt32.ext h)

theorem listLT_trichotomy :
    ∀ x y : List Char, listLT x y = true ∨ x = y ∨ listLT y x = true := by
  intro x
  induction x with
  | nil => intro y; cases y <;> simp [listLT]
  | cons a as ih =>
    intro y
    cases y with
    | nil => simp [listLT]
    | cons b bs =>
      rcases Nat.lt_trichotomy a.toNat b.toNat with h | h | h
      · left; simp [listLT, h]
      · have hab : a = b := char_eq_of_toNat_eq h
        subst hab
        rcases ih bs with h2 | h2 | h2
        · left; simp [listLT, h2]
        · right; left; rw [h2]
        · right; right; simp [listLT, h2]
      · right; right; simp [listLT, h]

theorem listLT_trans : ∀ x y z : List Char,
    listLT x y = true → listLT y z = true → listLT x z = true := by
  intro x
  induction x with
  | nil =>
    intro y z hxy hyz
    cases y with
    | nil => simp [listLT] at hxy
    | cons b bs => cases z with
      | nil => simp [listLT] at hyz
      | cons c cs => simp [listLT]
  | cons a as ih =>
    intro y z hxy hyz
    cases y with
    | nil => simp [listLT] at hxy
    | cons b bs =>
      cases z with
      | nil => simp [listLT] at hyz
      | cons c cs =>
        simp only [listLT] at hxy hyz ⊢
        rcases Nat.lt_trichotomy a.toNat b.toNat with h1 | h1 | h1
        · rcases Nat.lt_trichotomy b.toNat c.toNat with h2 | h2 | h2
          · simp [Nat.lt_trans h1 h2]
          · simp [h2 ▸ h1]
          · rw [if_neg (by omega), if_pos h2] at hyz; exact absurd hyz (by simp)
        · rw [if_neg (by omega), if_neg (by omega)] at hxy
          rcases Nat.lt_trichotomy b.toNat c.toNat with h2 | h2 | h2
          · simp [h1 ▸ h2]
          · rw [if_neg (by omega), if_neg (by omega)] at hyz
            rw [if_neg (by omega), if_neg (by omega)]
            exact ih bs cs hxy hyz
          · rw [if_neg (by omega), if_pos h2] at hyz; exact absurd hyz (by simp)
        · rw [if_neg (by omega), if_pos h1] at hxy; exact absurd hxy (by simp)

/-- Strict lexicographic order on strings (how pandas orders tickers). -/
def strLT (a b : String) : Prop := listLT a.data b.data = true

instance : DecidableRel strLT := fun a b => by
  unfold strLT; infer_instance

theorem strLT_trichotomy (a b : String) : strLT a b ∨ a = b ∨ strLT b a := by
  rcases listLT_trichotomy a.data b.data with h | h | h
  · exact Or.inl h
  · refine Or.inr (Or.inl ?_)
    cases a; cases b; exact congrArg String.mk (by simpa using h)
  · exact Or.inr (Or.inr h)

/-- The sort key used by `df.sort_values(["ticker", "date"])`. -/
def rowLE (a b : Row) : Prop :=
  strLT a.ticker b.ticker ∨ (a.ticker = b.ticker ∧ a.date ≤ b.date)

instance : DecidableRel rowLE := fun a b => by
  unfold rowLE; infer_instance

instance : IsTotal Row rowLE := by
  constructor
  intro a b
  rcases strLT_trichotomy a.ticker b.ticker with h | h | h
  · exact Or.inl (Or.inl h)
  · rcases le_total a.date b.date with hd | hd
    · exact Or.inl (Or.inr ⟨h, hd⟩)
    · exact Or.inr (Or.inr ⟨h.symm, hd⟩)
  · exact Or.inr (Or.inl h)

instance : IsTrans Row rowLE := by
  constructor
  intro a b c hab hbc
  rcases hab with h1 | ⟨h1, d1⟩
  · rcases hbc with h2 | ⟨h2, _⟩
    · exact Or.inl (listLT_trans _ _ _ h1 h2)
    · exact Or.inl (h2 ▸ h1)
  · rcases hbc with h2 | ⟨h2, d2⟩
    · exact Or.inl (h1 ▸ h2)
    · exact Or.inr ⟨h1.trans h2, d1.trans d2⟩

/-- `df.sort_values(["ticker", "date"])`, modelled as a deterministic stable
sort. -/
def sortRows (rs : List Row) : List Row := rs.insertionSort rowLE

/-- Projection feeding `groupby("ticker")["close"].pct_change()`. -/
def tickerClose (r : Row) : String × ℚ := (r.ticker, r.close)

/-- One cell of the `pct_change` column: NaN at a group boundary, otherwise
the percentage change against the previous close of the same ticker. -/
def drCell : Option (String × ℚ) → String × ℚ → EVal
  | none, _ => EVal.nan
  | some q, p => if q.1 = p.1 then pctChange q.2 p.2 else EVal.nan

/-- `df.groupby("ticker")["close"].pct_change()` over the sorted rows (groups
are contiguous after the sort), carrying the previous (ticker, close) pair. -/
def drColumn : Option (String × ℚ) → List (String × ℚ) → List EVal
  | _, [] => []
  | prev, p :: rest => drCell prev p :: drColumn (some p) rest

/-- `(1 + df["daily_return"]).groupby(df["ticker"]).cumprod() - 1`: a per-group
running product with pandas `skipna` semantics (a NaN factor yields a NaN cell
but leaves the running product untouched), then an elementwise `- 1`. -/
def cumColumn : Option String → EVal → List (String × EVal) → List EVal
  | _, _, [] => []
  | tk, acc, p :: rest =>
    let acc0 := if tk = some p.1 then acc else EVal.num 1
    let s := EVal.add (EVal.num 1) p.2
    if s = EVal.nan then
      EVal.nan :: cumColumn (some p.1) acc0 rest
    else
      EVal.sub (EVal.mul acc0 s) (EVal.num 1) ::
        cumColumn (some p.1) (EVal.mul acc0 s) rest

/-- Column assignment `df["daily_return"] = d; df["cum_return"] = c`. -/
def setReturnCells : List Row → List EVal → List EVal → List Row
  | [], _, _ => []
  | r :: rs, d :: ds, c :: cs =>
    { r with daily_return := d, cum_return := c } :: setReturnCells rs ds cs
  | rs, _, _ => rs

/-- `transform.compute_returns`: sort by (ticker, date), then add the
`daily_return` (grouped `pct_change` of `close`) and `cum_return` (grouped
cumulative product of `1 + daily_return`, minus 1) columns. -/
def compute_returns (t : Table) : Table :=
  let s := sortRows t.rows
  let d := drColumn none (s.map tickerClose)
  let c := cumColumn none (EVal.num 1) (List.zipWith (fun r dv => (r.ticker, dv)) s d)
  { rows := setReturnCells s d c
    has_daily_return := true
    has_cum_return := true
    has_vol := t.has_vol }

/-! ### Pointwise characterisation of the derived columns -/

theorem getD_map_of_lt {α β : Type} (f : α → β) (l : List α) (i : ℕ)
    (h : i < l.length) (da : α) (db : β) :
    (l.map f).getD i db = f (l.getD i da) := by
  have h2 : i < (l.map f).length := by simpa using h
  rw [List.getD_eq_getElem?_getD, List.getElem?_eq_getElem h2,
      List.getD_eq_getElem?_getD, List.getElem?_eq_getElem h]
  simp

theorem getD_zipWith_of_lt {α β γ : Type} (f : α → β → γ) (l1 : List α)
    (l2 : List β) (i : ℕ) (h1 : i < l1.length) (h2 : i < l2.length)
    (da : α) (db : β) (dc : γ) :
    (List.zipWith f l1 l2).getD i dc = f (l1.getD i da) (l2.getD i db) := by
  have h3 : i < (List.zipWith f l1 l2).length := by
    rw [List.length_zipWith]; omega
  rw [List.getD_eq_getElem?_getD, List.getElem?_eq_getElem h3,
      List.getD_eq_getElem?_getD, List.getElem?_eq_getElem h1,
      List.getD_eq_getElem?_getD, List.getElem?_eq_getElem h2]
  simp

theorem drColumn_length (l : List (String × ℚ)) :
    ∀ prev : Option (String × ℚ), (drColumn prev l).length = l.length := by
  induction l with
  | nil => intro prev; rfl
  | cons p rest ih => intro prev; simp [drColumn, ih]

theorem drColumn_getD (l : List (String × ℚ)) :
    ∀ (prev : Option (String × ℚ)) (i : ℕ), i < l.length →
      (drColumn prev l).getD i EVal.nan =
        drCell (if i = 0 then prev else some (l.getD (i - 1) ("", 0)))
               (l.getD i ("", 0)) := by
  induction l with
  | nil => intro prev i hi; simp at hi
  | cons p rest ih =>
    intro prev i hi
    cases i with
    | zero => simp [drColumn]
    | succ j =>
      have hj : j < rest.length := by simpa using hi
      rw [drColumn, List.getD_cons_succ, ih (some p) j hj]
      cases j with
      | zero => simp
      | succ k => simp [List.getD_cons_succ]

theorem cumColumn_length (l : List (String × EVal)) :
    ∀ (tk : Option String) (acc : EVal), (cumColumn tk acc l).length = l.length := by
  induction l with
  | nil => intro tk acc; rfl
  | cons p rest ih =>
    intro tk acc
    rw [cumColumn]
    by_cases h : EVal.add (EVal.num 1) p.2 = EVal.nan <;> simp [h, ih]

theorem setReturnCells_length : ∀ (rs : List Row) (ds cs : List EVal),
    ds.length = rs.length → cs.length = rs.length →
    (setReturnCells rs ds cs).length = rs.length := by
  intro rs
  induction rs with
  | nil => intro ds cs _ _; cases ds <;> cases cs <;> rfl
  | cons r rest ih =>
    intro ds cs hd hc
    cases ds with
    | nil => simp at hd
    | cons d ds' =>
      cases cs with
      | nil => simp at hc
      | cons c cs' =>
        simp only [setReturnCells, List.length_cons]
        rw [ih ds' cs' (by simpa using hd) (by simpa using hc)]

theorem setReturnCells_getD : ∀ (rs : List Row) (ds cs : List EVal) (i : ℕ),
    ds.length = rs.length → cs.length = rs.length → i < rs.length →
    (setReturnCells rs ds cs).getD i default =
      { rs.getD i default with daily_return := ds.getD i EVal.nan,
                               cum_return := cs.getD i EVal.nan } := by
  intro rs
  induction rs with
  | nil => intro ds cs i _ _ hi; simp at hi
  | cons r rest ih =>
    intro ds cs i hd hc hi
    cases ds with
    | nil => simp at hd
    | cons d ds' =>
      cases cs with
      | nil => simp at hc
      | cons c cs' =>
        cases i with
        | zero => simp [setReturnCells]
        | succ j =>
          simp only [setReturnCells, List.getD_cons_succ]
          exact ih ds' cs' j (by simpa using hd) (by simpa using hc)
            (by simpa using hi)

/-- The `daily_return` cell that `compute_returns` writes at position `i` of an
already-sorted table. -/
theorem compute_returns_dr_getD (t : Table) (hs : List.Sorted rowLE t.rows)
    (i : ℕ) (hi : i < t.rows.length) :
    ((compute_returns t).rows.getD i default).daily_return =
      drCell (if i = 0 then none
              else some (tickerClose (t.rows.getD (i - 1) default)))
             (tickerClose (t.rows.getD i default)) := by
  have hsort : sortRows t.rows = t.rows := hs.insertionSort_eq
  unfold compute_returns
  dsimp only
  rw [hsort]
  have hdl : (drColumn none (t.rows.map tickerClose)).length = t.rows.length := by
    rw [drColumn_length]; simp
  have hcl : (cumColumn none (EVal.num 1)
      (List.zipWith (fun r dv => (r.ticker, dv)) t.rows
        (drColumn none (t.rows.map tickerClose)))).length = t.rows.length := by
    rw [cumColumn_length, List.length_zipWith, hdl]; simp
  rw [setReturnCells_getD _ _ _ i hdl hcl hi]
  dsimp only
  rw [drColumn_getD _ _ i (by simpa using hi)]
  by_cases h0 : i = 0
  · subst h0
    rw [if_pos rfl, if_pos rfl, getD_map_of_lt tickerClose t.rows 0 hi default]
  · have hi1 : i - 1 < t.rows.length := by omega
    rw [if_neg h0, if_neg h0,
        getD_map_of_lt tickerClose t.rows i hi default,
        getD_map_of_lt tickerClose t.rows (i - 1) hi1 default]

/-- C3: in `compute_returns` of a table sorted by (ticker, date), the
`daily_return` of the first row of each ticker group is absent, and every
later row `i` of a group with a nonzero previous close gets
`close[i] / close[i-1] - 1`. -/
theorem compute_returns_daily_return_spec (t : Table)
    (hs : List.Sorted rowLE t.rows) (i : ℕ) (hi : i < t.rows.length) :
    ((i = 0 ∨ (t.rows.getD (i - 1) default).ticker ≠ (t.rows.getD i default).ticker) →
      ((compute_returns t).rows.getD i default).daily_return = EVal.nan) ∧
    (∀ j, i = j + 1 →
      (t.rows.getD j default).ticker = (t.rows.getD i default).ticker →
      (t.rows.getD j default).close ≠ 0 →
      ((compute_returns t).rows.getD i default).daily_return =
        EVal.num ((t.rows.getD i default).close /
          (t.rows.getD j default).close - 1)) := by
  constructor
  · intro hfirst
    rw [compute_returns_dr_getD t hs i hi]
    rcases hfirst with h0 | hne
    · simp [h0, drCell]
    · rw [if_neg ?_]
      · simp only [drCell, tickerClose]
        rw [if_neg hne]
      · intro h0
        simp [h0] at hne
  · intro j hj hsame hc0
    rw [compute_returns_dr_getD t hs i hi]
    have h0 : i ≠ 0 := by omega
    have hj' : i - 1 = j := by omega
    rw [if_neg h0, hj']
    simp only [drCell, tickerClose]
    rw [if_pos hsame]
    unfold pctChange
    rw [if_neg hc0]

/-- Two-row single-ticker demo table with closes 100, 101. -/
def demoC3 : Table :=
  ⟨[{ date := 0, ticker := "AAPL", open_ := 0, high := 0, low := 0, close := 100,
      volume := 0, daily_return := EVal.nan, cum_return := EVal.nan,
      vol_var := EVal.nan },
    { date := 1, ticker := "AAPL", open_ := 0, high := 0, low := 0, close := 101,
      volume := 0, daily_return := EVal.nan, cum_return := EVal.nan,
      vol_var := EVal.nan }], false, false, false⟩

/-- Witness for C3 at a concrete two-row table. -/
theorem compute_returns_daily_return_spec_witness :
    List.Sorted rowLE demoC3.rows ∧ 1 < demoC3.rows.length ∧
    (demoC3.rows.getD 0 default).close ≠ 0 ∧
    ((compute_returns demoC3).rows.getD 0 default).daily_return = EVal.nan ∧
    ((compute_returns demoC3).rows.getD 1 default).daily_return =
      EVal.num ((demoC3.rows.getD 1 default).close /
        (demoC3.rows.getD 0 default).close - 1) := by
  refine ⟨by decide, by decide, by decide, ?_, ?_⟩
  · exact (compute_returns_daily_return_spec demoC3 (by decide) 0
      (by decide)).1 (Or.inl rfl)
  · exact (compute_returns_daily_return_spec demoC3 (by decide) 1
      (by decide)).2 0 rfl (by decide) (by decide)

/-- Two-row single-ticker demo table whose first close is zero. -/
def demoC6 : Table :=
  ⟨[{ date := 0, ticker := "AAPL", open_ := 0, high := 0, low := 0, close := 0,
      volume := 0, daily_return := EVal.nan, cum_return := EVal.nan,
      vol_var := EVal.nan },
    { date := 1, ticker := "AAPL", open_ := 0, high := 0, low := 0, close := 5,
      volume := 0, daily_return := EVal.nan, cum_return := EVal.nan,
      vol_var := EVal.nan }], false, false, false⟩

/-- C6 counterexample: with a zero previous close and a positive current
close, `compute_returns` writes `+inf` — a value that is *not* absent — so the
return is not "propagated as an explicit absent value" as the claim states. -/
theorem zero_close_return_not_absent_cex :
    ((compute_returns demoC6).rows.getD 1 default).daily_return = EVal.pinf ∧
    EVal.pinf ≠ EVal.nan := by decide

/-- C6 amended: when the previous close within a ticker group is zero, the
return written by `compute_returns` is `+inf` for a positive current close,
`-inf` for a negative one, and absent (NaN) only for a zero current close; in
no case is it a finite number (in particular never a silent zero), and no
error is raised (`compute_returns` is total). -/
theorem compute_returns_zero_close_spec (t : Table)
    (hs : List.Sorted rowLE t.rows) (i j : ℕ) (hi : i < t.rows.length)
    (hj : i = j + 1)
    (hsame : (t.rows.getD j default).ticker = (t.rows.getD i default).ticker)
    (hzero : (t.rows.getD j default).close = 0) :
    (0 < (t.rows.getD i default).close →
      ((compute_returns t).rows.getD i default).daily_return = EVal.pinf) ∧
    ((t.rows.getD i default).close < 0 →
      ((compute_returns t).rows.getD i default).daily_return = EVal.ninf) ∧
    ((t.rows.getD i default).close = 0 →
      ((compute_returns t).rows.getD i default).daily_return = EVal.nan) ∧
    ∀ q : ℚ, ((compute_returns t).rows.getD i default).daily_return ≠ EVal.num q := by
  have hcell : ((compute_returns t).rows.getD i default).daily_return =
      pctChange (t.rows.getD j default).close (t.rows.getD i default).close := by
    rw [compute_returns_dr_getD t hs i hi, if_neg (by omega)]
    have hij : i - 1 = j := by omega
    rw [hij]
    simp only [drCell, tickerClose]
    rw [if_pos hsame]
  rw [hcell]
  unfold pctChange
  rw [if_pos hzero]
  refine ⟨?_, ?_, ?_, ?_⟩
  · intro h; rw [if_pos h]
  · intro h; rw [if_neg (not_lt.mpr h.le), if_pos h]
  · intro h; rw [if_neg (by rw [h]; exact lt_irrefl 0), if_neg (by rw [h]; exact lt_irrefl 0)]
  · intro q
    rcases lt_trichotomy (0 : ℚ) (t.rows.getD i default).close with h | h | h
    · rw [if_pos h]; exact fun hx => EVal.noConfusion hx
    · rw [if_neg (not_lt.mpr h.ge), if_neg (not_lt.mpr h.le)]
      exact fun hx => EVal.noConfusion hx
    · rw [if_neg (not_lt.mpr h.le), if_pos h]
      exact fun hx => EVal.noConfusion hx

/-- Witness for the amended C6 at a concrete table. -/
theorem compute_returns_zero_close_spec_witness :
    List.Sorted rowLE demoC6.rows ∧ (demoC6.rows.getD 0 default).close = 0 ∧
    0 < (demoC6.rows.getD 1 default).close ∧
    ((compute_returns demoC6).rows.getD 1 default).daily_return = EVal.pinf := by
  refine ⟨by decide, by decide, by decide, ?_⟩
  exact (compute_returns_zero_close_spec demoC6 (by decide) 1 0 (by decide) rfl
    (by decide) (by decide)).1 (by decide)

/-! ### Ticker runs and the cumulative-product column -/

/-- Index of the first row of the (contiguous, post-sort) ticker run that
contains position `i`. -/
def runStart (l : List Row) : ℕ → ℕ
  | 0 => 0
  | j + 1 => if (l.getD j default).ticker = (l.getD (j + 1) default).ticker
             then runStart l j else j + 1

theorem runStart_le (l : List Row) : ∀ i, runStart l i ≤ i := by
  intro i
  induction i with
  | zero => exact Nat.le_refl 0
  | succ j ih =>
    rw [runStart]
    by_cases h : (l.getD j default).ticker = (l.getD (j + 1) default).ticker
    · rw [if_pos h]; omega
    · rw [if_neg h]

theorem ticker_eq_of_runStart_le (l : List Row) :
    ∀ i k, runStart l i ≤ k → k ≤ i →
    (l.getD k default).ticker = (l.getD i default).ticker := by
  intro i
  induction i with
  | zero =>
    intro k h1 h2
    have hk : k = 0 := by omega
    rw [hk]
  | succ j ih =>
    intro k h1 h2
    by_cases h : (l.getD j default).ticker = (l.getD (j + 1) default).ticker
    · rw [runStart, if_pos h] at h1
      rcases Nat.lt_or_ge k (j + 1) with hk | hk
      · exact (ih k h1 (by omega)).trans h
      · have hk1 : k = j + 1 := by omega
        rw [hk1]
    · rw [runStart, if_neg h] at h1
      have hk1 : k = j + 1 := by omega
      rw [hk1]

theorem runStart_eq_self_cases (l : List Row) (i : ℕ) (h : runStart l i = i) :
    i = 0 ∨ (l.getD (i - 1) default).ticker ≠ (l.getD i default).ticker := by
  cases i with
  | zero => exact Or.inl rfl
  | succ j =>
    right
    by_cases hsame : (l.getD j default).ticker = (l.getD (j + 1) default).ticker
    · exfalso
      rw [runStart, if_pos hsame] at h
      have := runStart_le l j
      omega
    · simpa using hsame

theorem runStart_boundary (l : List Row) (i : ℕ) :
    runStart l i = 0 ∨
    (l.getD (runStart l i - 1) default).ticker ≠
      (l.getD (runStart l i) default).ticker := by
  induction i with
  | zero => exact Or.inl rfl
  | succ j ih =>
    by_cases h : (l.getD j default).ticker = (l.getD (j + 1) default).ticker
    · rw [runStart, if_pos h]; exact ih
    · right
      rw [runStart, if_neg h]
      simpa using h

/-- The accumulator update of one `cumprod` step (pandas `skipna` semantics:
a NaN factor leaves the running product unchanged). -/
def cumStep (tk : Option String) (acc : EVal) (p : String × EVal) : EVal :=
  let acc0 := if tk = some p.1 then acc else EVal.num 1
  let s := EVal.add (EVal.num 1) p.2
  if s = EVal.nan then acc0 else EVal.mul acc0 s

theorem cumColumn_cons (tk : Option String) (acc : EVal) (p : String × EVal)
    (rest : List (String × EVal)) :
    cumColumn tk acc (p :: rest) =
      (if EVal.add (EVal.num 1) p.2 = EVal.nan then EVal.nan
       else EVal.sub (EVal.mul (if tk = some p.1 then acc else EVal.num 1)
         (EVal.add (EVal.num 1) p.2)) (EVal.num 1)) ::
      cumColumn (some p.1) (cumStep tk acc p) rest := by
  rw [cumColumn, cumStep]
  by_cases h : EVal.add (EVal.num 1) p.2 = EVal.nan <;> simp [h]

/-- Group label carried by the `cumprod` scan after consuming a list. -/
def cumTk (tk : Option String) : List (String × EVal) → Option String
  | [] => tk
  | p :: rest => cumTk (some p.1) rest

/-- Accumulator value of the `cumprod` scan after consuming a list. -/
def cumAcc (tk : Option String) (acc : EVal) : List (String × EVal) → EVal
  | [] => acc
  | p :: rest => cumAcc (some p.1) (cumStep tk acc p) rest

theorem cumColumn_append (l1 : List (String × EVal)) :
    ∀ (l2 : List (String × EVal)) (tk : Option String) (acc : EVal),
    cumColumn tk acc (l1 ++ l2) =
      cumColumn tk acc l1 ++ cumColumn (cumTk tk l1) (cumAcc tk acc l1) l2 := by
  induction l1 with
  | nil => intro l2 tk acc; rfl
  | cons p rest ih =>
    intro l2 tk acc
    rw [List.cons_append, cumColumn_cons, ih, cumColumn_cons]
    rfl

theorem cumTk_eq_last : ∀ (l1 : List (String × EVal)) (tk : Option String) (j : ℕ),
    l1.length = j + 1 → cumTk tk l1 = some ((l1.getD j ("", EVal.nan)).1) := by
  intro l1
  induction l1 with
  | nil => intro tk j h; simp at h
  | cons p rest ih =>
    intro tk j h
    cases rest with
    | nil =>
      have hj : j = 0 := by simpa using h
      subst hj; rfl
    | cons q rest2 =>
      have hlen : (q :: rest2).length = (j - 1) + 1 := by
        simp only [List.length_cons] at h ⊢; omega
      have hj : j = (j - 1) + 1 := by
        simp only [List.length_cons] at h; omega
      rw [show cumTk tk (p :: q :: rest2) = cumTk (some p.1) (q :: rest2) from rfl,
          ih (some p.1) (j - 1) hlen, hj, List.getD_cons_succ]
      simp

/-- A position whose `1 + daily_return` factor is NaN gets a NaN
`cum_return` cell. -/
theorem cumColumn_getD_nan (l : List (String × EVal)) :
    ∀ (tk : Option String) (acc : EVal) (i : ℕ), i < l.length →
    EVal.add (EVal.num 1) ((l.getD i ("", EVal.nan)).2) = EVal.nan →
    (cumColumn tk acc l).getD i EVal.nan = EVal.nan := by
  induction l with
  | nil => intro tk acc i hi; simp at hi
  | cons p rest ih =>
    intro tk acc i hi hs
    rw [cumColumn_cons]
    cases i with
    | zero =>
      simp only [List.getD_cons_zero] at hs ⊢
      rw [if_pos hs]
    | succ j =>
      rw [List.getD_cons_succ]
      exact ih _ _ j (by simpa using hi) (by simpa using hs)

/-- Inside one ticker run with all factors finite, the `cumprod` scan started
at accumulator `A` produces `A * ∏ (1 + r) - 1` cells. -/
theorem cumColumn_getD_in_group (seg : List (String × EVal)) :
    ∀ (t0 : String) (A : ℚ) (m : ℕ), m < seg.length →
    (∀ k, k ≤ m → (seg.getD k ("", EVal.nan)).1 = t0 ∧
        ((seg.getD k ("", EVal.nan)).2).isNum = true) →
    (cumColumn (some t0) (EVal.num A) seg).getD m EVal.nan =
      EVal.num (A * ((List.range (m + 1)).map
        (fun k => 1 + ((seg.getD k ("", EVal.nan)).2).toQ)).prod - 1) := by
  induction seg with
  | nil => intro t0 A m hm; simp at hm
  | cons p rest ih =>
    intro t0 A m hm hk
    obtain ⟨ht0, hnum0⟩ := hk 0 (Nat.zero_le m)
    simp only [List.getD_cons_zero] at ht0 hnum0
    obtain ⟨w, hw⟩ : ∃ w, p.2 = EVal.num w := by
      cases hp : p.2 <;> rw [hp] at hnum0 <;> simp [EVal.isNum] at hnum0
      exact ⟨_, rfl⟩
    have hs : EVal.add (EVal.num 1) p.2 = EVal.num (1 + w) := by rw [hw]; rfl
    have hsne : EVal.add (EVal.num 1) p.2 ≠ EVal.nan := by
      rw [hs]; exact fun hx => EVal.noConfusion hx
    have hacc : (if some t0 = some p.1 then EVal.num A else EVal.num 1) =
        EVal.num A := by rw [if_pos (by rw [ht0])]
    rw [cumColumn_cons, if_neg hsne, hacc, hs]
    have hstep : cumStep (some t0) (EVal.num A) p = EVal.num (A * (1 + w)) := by
      rw [cumStep]
      simp only [hs, hacc]
      rw [if_neg (show EVal.num (1 + w) ≠ EVal.nan from fun hx => EVal.noConfusion hx)]
      rfl
    cases m with
    | zero =>
      rw [List.getD_cons_zero]
      have hprod : ((List.range (0 + 1)).map
          (fun k => 1 + ((List.getD (p :: rest) k ("", EVal.nan)).2).toQ)).prod =
          1 + w := by
        simp [List.range_succ, hw, EVal.toQ]
      rw [hprod]
      rfl
    | succ m' =>
      rw [List.getD_cons_succ, ht0, hstep]
      have hm' : m' < rest.length := by simpa using hm
      have hk' : ∀ k, k ≤ m' → (rest.getD k ("", EVal.nan)).1 = t0 ∧
          ((rest.getD k ("", EVal.nan)).2).isNum = true := by
        intro k hkm
        have := hk (k + 1) (by omega)
        simpa [List.getD_cons_succ] using this
      rw [ih t0 (A * (1 + w)) m' hm' hk']
      congr 1
      have hcomp : ((fun k => 1 + ((List.getD (p :: rest) k ("", EVal.nan)).2).toQ) ∘
          Nat.succ) = fun k => 1 + ((rest.getD k ("", EVal.nan)).2).toQ := by
        funext k
        simp [Function.comp, List.getD_cons_succ]
      have hsplit : ((List.range (m' + 1 + 1)).map
          (fun k => 1 + ((List.getD (p :: rest) k ("", EVal.nan)).2).toQ)).prod =
          (1 + w) * ((List.range (m' + 1)).map
            (fun k => 1 + ((rest.getD k ("", EVal.nan)).2).toQ)).prod := by
        rw [List.range_succ_eq_map]
        simp only [List.map_cons, List.prod_cons, List.map_map]
        rw [hcomp]
        simp [hw, EVal.toQ]
      rw [hsplit]
      ring

/-- The `cum_return` cell that `compute_returns` writes at position `i` of an
already-sorted table, as a lookup into the raw `cumprod` column. -/
theorem compute_returns_cum_getD (t : Table) (hs : List.Sorted rowLE t.rows)
    (i : ℕ) (hi : i < t.rows.length) :
    ((compute_returns t).rows.getD i default).cum_return =
      (cumColumn none (EVal.num 1)
        (List.zipWith (fun r dv => (r.ticker, dv)) t.rows
          (drColumn none (t.rows.map tickerClose)))).getD i EVal.nan := by
  have hsort : sortRows t.rows = t.rows := hs.insertionSort_eq
  unfold compute_returns
  dsimp only
  rw [hsort]
  have hdl : (drColumn none (t.rows.map tickerClose)).length = t.rows.length := by
    rw [drColumn_length]; simp
  have hcl : (cumColumn none (EVal.num 1)
      (List.zipWith (fun r dv => (r.ticker, dv)) t.rows
        (drColumn none (t.rows.map tickerClose)))).length = t.rows.length := by
    rw [cumColumn_length, List.length_zipWith, hdl]; simp
  rw [setReturnCells_getD _ _ _ i hdl hcl hi]

/-- Element `k` of the (ticker, daily_return) pair list fed to the grouped
`cumprod`. -/
theorem pairList_getD (l : List Row) (k : ℕ) (hk : k < l.length) :
    (List.zipWith (fun r dv => (r.ticker, dv)) l
      (drColumn none (l.map tickerClose))).getD k ("", EVal.nan) =
      ((l.getD k default).ticker,
        (drColumn none (l.map tickerClose)).getD k EVal.nan) := by
  have hdl : (drColumn none (l.map tickerClose)).length = l.length := by
    rw [drColumn_length]; simp
  exact getD_zipWith_of_lt _ _ _ k hk (by rw [hdl]; exact hk) default EVal.nan
    ("", EVal.nan)

/-- The `pct_change` column at a within-run position with nonzero previous
close. -/
theorem drColumn_getD_run (l : List Row) (k : ℕ) (hk : k + 1 < l.length)
    (hsame : (l.getD k default).ticker = (l.getD (k + 1) default).ticker)
    (hc : (l.getD k default).close ≠ 0) :
    (drColumn none (l.map tickerClose)).getD (k + 1) EVal.nan =
      EVal.num ((l.getD (k + 1) default).close / (l.getD k default).close - 1) := by
  rw [drColumn_getD _ _ (k + 1) (by simpa using hk)]
  rw [if_neg (Nat.succ_ne_zero k)]
  have h1 : k + 1 - 1 = k := rfl
  rw [h1, getD_map_of_lt tickerClose l (k + 1) hk default,
      getD_map_of_lt tickerClose l k (by omega) default]
  simp only [drCell, tickerClose]
  rw [if_pos hsame]
  unfold pctChange
  rw [if_neg hc]

/-- The `pct_change` column is NaN at the first position of each run. -/
theorem drColumn_getD_boundary (l : List Row) (i : ℕ) (hi : i < l.length)
    (hb : i = 0 ∨ (l.getD (i - 1) default).ticker ≠ (l.getD i default).ticker) :
    (drColumn none (l.map tickerClose)).getD i EVal.nan = EVal.nan := by
  rw [drColumn_getD _ _ i (by simpa using hi)]
  by_cases h0 : i = 0
  · rw [if_pos h0]; rfl
  · rcases hb with h0' | hne
    · exact absurd h0' h0
    · rw [if_neg h0, getD_map_of_lt tickerClose l i hi default,
          getD_map_of_lt tickerClose l (i - 1) (by omega) default]
      simp only [drCell, tickerClose]
      rw [if_neg hne]

/-- Telescoping product of consecutive quotients. -/
theorem prod_div_telescope (f : ℕ → ℚ) : ∀ n, (∀ k, k ≤ n → f k ≠ 0) →
    ((List.range n).map (fun k => f (k + 1) / f k)).prod = f n / f 0 := by
  intro n
  induction n with
  | zero =>
    intro h
    simp [div_self (h 0 (le_refl 0))]
  | succ m ih =>
    intro h
    rw [List.range_succ, List.map_append, List.prod_append]
    simp only [List.map_cons, List.map_nil, List.prod_cons, List.prod_nil]
    rw [ih (fun k hk => h k (by omega))]
    have hfm : f m ≠ 0 := h m (by omega)
    have hf0 : f 0 ≠ 0 := h 0 (by omega)
    field_simp
    ring

/-- C4: in `compute_returns` of a table sorted by (ticker, date) with all
closes nonzero, `cum_return` is absent exactly on the first row of each
ticker run, and on every later row `i` equals the running product of
`(1 + daily_return)` over the run up to `i`, minus 1; consequently
`close[runStart] * (1 + cum_return[i]) = close[i]` (the close series can be
reconstructed from `cum_return`). -/
theorem compute_returns_cum_return_spec (t : Table)
    (hs : List.Sorted rowLE t.rows)
    (hc : ∀ r ∈ t.rows, r.close ≠ 0)
    (i : ℕ) (hi : i < t.rows.length) :
    (runStart t.rows i = i →
      ((compute_returns t).rows.getD i default).cum_return = EVal.nan) ∧
    (runStart t.rows i < i →
      ∃ c : ℚ,
        ((compute_returns t).rows.getD i default).cum_return = EVal.num c ∧
        1 + c = ((List.range (i - runStart t.rows i)).map (fun k =>
          1 + ((t.rows.getD (runStart t.rows i + k + 1) default).close /
               (t.rows.getD (runStart t.rows i + k) default).close - 1))).prod ∧
        (t.rows.getD (runStart t.rows i) default).close * (1 + c) =
          (t.rows.getD i default).close) := by
  have hne : ∀ k, k < t.rows.length → (t.rows.getD k default).close ≠ 0 := by
    intro k hk
    apply hc
    rw [List.getD_eq_getElem?_getD, List.getElem?_eq_getElem hk]
    exact List.getElem_mem hk
  have hzlen : (List.zipWith (fun r dv => (r.ticker, dv)) t.rows
      (drColumn none (t.rows.map tickerClose))).length = t.rows.length := by
    rw [List.length_zipWith, drColumn_length]; simp
  constructor
  · intro hfirst
    rw [compute_returns_cum_getD t hs i hi]
    apply cumColumn_getD_nan _ _ _ i (by rw [hzlen]; exact hi)
    rw [pairList_getD t.rows i hi]
    show EVal.add (EVal.num 1)
      ((drColumn none (t.rows.map tickerClose)).getD i EVal.nan) = EVal.nan
    rw [drColumn_getD_boundary t.rows i hi (runStart_eq_self_cases t.rows i hfirst)]
    rfl
  · intro hlt
    obtain ⟨j0, hj0⟩ : ∃ j0, runStart t.rows i = j0 := ⟨_, rfl⟩
    rw [hj0] at hlt ⊢
    have hj0le : j0 ≤ i := by have := runStart_le t.rows i; omega
    have hboundary := runStart_boundary t.rows i
    rw [hj0] at hboundary
    have hticker : ∀ k, j0 ≤ k → k ≤ i →
        (t.rows.getD k default).ticker = (t.rows.getD i default).ticker := by
      intro k h1 h2
      exact ticker_eq_of_runStart_le t.rows i k (by rw [hj0]; omega) h2
    have htkj0 : (t.rows.getD j0 default).ticker = (t.rows.getD i default).ticker :=
      hticker j0 (le_refl j0) (by omega)
    have hdr : ∀ k, j0 ≤ k → k < i →
        (drColumn none (t.rows.map tickerClose)).getD (k + 1) EVal.nan =
          EVal.num ((t.rows.getD (k + 1) default).close /
            (t.rows.getD k default).close - 1) := by
      intro k h1 h2
      refine drColumn_getD_run t.rows k (by omega) ?_ (hne k (by omega))
      exact (hticker k h1 (by omega)).trans
        ((hticker (k + 1) (by omega) (by omega)).symm)
    have htake_len : ((List.zipWith (fun r dv => (r.ticker, dv)) t.rows
        (drColumn none (t.rows.map tickerClose))).take j0).length = j0 := by
      rw [List.length_take, hzlen]
      exact Nat.min_eq_left (by omega)
    have htkne : cumTk none ((List.zipWith (fun r dv => (r.ticker, dv)) t.rows
        (drColumn none (t.rows.map tickerClose))).take j0) ≠
        some (t.rows.getD j0 default).ticker := by
      by_cases h0 : j0 = 0
      · subst h0
        intro hx
        simp [cumTk] at hx
      · rcases hboundary with hb0 | hbne
        · exact absurd hb0 h0
        · rw [cumTk_eq_last _ none (j0 - 1) (by rw [htake_len]; omega)]
          have hgetD_take : ((List.zipWith (fun r dv => (r.ticker, dv)) t.rows
              (drColumn none (t.rows.map tickerClose))).take j0).getD (j0 - 1)
                ("", EVal.nan) =
              (List.zipWith (fun r dv => (r.ticker, dv)) t.rows
                (drColumn none (t.rows.map tickerClose))).getD (j0 - 1)
                ("", EVal.nan) := by
            rw [List.getD_eq_getElem?_getD, List.getElem?_take,
                List.getD_eq_getElem?_getD]
            simp [show j0 - 1 < j0 by omega]
          rw [hgetD_take, pairList_getD t.rows (j0 - 1) (by omega)]
          intro hx
          exact hbne (Option.some.inj hx)
    have hdrop : (List.zipWith (fun r dv => (r.ticker, dv)) t.rows
        (drColumn none (t.rows.map tickerClose))).drop j0 =
        ((t.rows.getD j0 default).ticker, EVal.nan) ::
        (List.zipWith (fun r dv => (r.ticker, dv)) t.rows
          (drColumn none (t.rows.map tickerClose))).drop (j0 + 1) := by
      have hj0lt : j0 < (List.zipWith (fun r dv => (r.ticker, dv)) t.rows
          (drColumn none (t.rows.map tickerClose))).length := by rw [hzlen]; omega
      rw [List.drop_eq_getElem_cons hj0lt]
      congr 1
      have hgetd : (List.zipWith (fun r dv => (r.ticker, dv)) t.rows
          (drColumn none (t.rows.map tickerClose)))[j0] =
          (List.zipWith (fun r dv => (r.ticker, dv)) t.rows
            (drColumn none (t.rows.map tickerClose))).getD j0 ("", EVal.nan) := by
        rw [List.getD_eq_getElem?_getD, List.getElem?_eq_getElem hj0lt]
        rfl
      rw [hgetd, pairList_getD t.rows j0 (by omega),
          drColumn_getD_boundary t.rows j0 (by omega) hboundary]
    have hstep1 : cumColumn
        (cumTk none ((List.zipWith (fun r dv => (r.ticker, dv)) t.rows
          (drColumn none (t.rows.map tickerClose))).take j0))
        (cumAcc none (EVal.num 1) ((List.zipWith (fun r dv => (r.ticker, dv)) t.rows
          (drColumn none (t.rows.map tickerClose))).take j0))
        ((List.zipWith (fun r dv => (r.ticker, dv)) t.rows
          (drColumn none (t.rows.map tickerClose))).drop j0) =
        EVal.nan :: cumColumn (some (t.rows.getD j0 default).ticker) (EVal.num 1)
          ((List.zipWith (fun r dv => (r.ticker, dv)) t.rows
            (drColumn none (t.rows.map tickerClose))).drop (j0 + 1)) := by
      rw [hdrop, cumColumn_cons]
      have haddnan : EVal.add (EVal.num 1)
          ((((t.rows.getD j0 default).ticker, EVal.nan) : String × EVal).2) =
          EVal.nan := rfl
      rw [if_pos haddnan]
      congr 1
      simp only [cumStep]
      rw [if_pos haddnan, if_neg htkne]
    have hcell : (cumColumn none (EVal.num 1)
        (List.zipWith (fun r dv => (r.ticker, dv)) t.rows
          (drColumn none (t.rows.map tickerClose)))).getD i EVal.nan =
        EVal.num (1 * ((List.range (i - j0 - 1 + 1)).map (fun k =>
          1 + ((((List.zipWith (fun r dv => (r.ticker, dv)) t.rows
            (drColumn none (t.rows.map tickerClose))).drop (j0 + 1)).getD k
              ("", EVal.nan)).2).toQ)).prod - 1) := by
      conv_lhs => rw [← List.take_append_drop j0
        (List.zipWith (fun r dv => (r.ticker, dv)) t.rows
          (drColumn none (t.rows.map tickerClose)))]
      rw [cumColumn_append]
      rw [List.getD_append_right _ _ _ _
        (by rw [cumColumn_length, htake_len]; omega)]
      rw [cumColumn_length, htake_len, hstep1]
      have hidx : i - j0 = (i - j0 - 1) + 1 := by omega
      rw [hidx, List.getD_cons_succ]
      refine cumColumn_getD_in_group _ _ 1 (i - j0 - 1) ?_ ?_
      · rw [List.length_drop, hzlen]; omega
      · intro k hk
        have hdropk : ((List.zipWith (fun r dv => (r.ticker, dv)) t.rows
            (drColumn none (t.rows.map tickerClose))).drop (j0 + 1)).getD k
              ("", EVal.nan) =
            (List.zipWith (fun r dv => (r.ticker, dv)) t.rows
              (drColumn none (t.rows.map tickerClose))).getD (j0 + 1 + k)
              ("", EVal.nan) := by
          rw [List.getD_eq_getElem?_getD, List.getElem?_drop,
              List.getD_eq_getElem?_getD]
        rw [hdropk, pairList_getD t.rows (j0 + 1 + k) (by omega)]
        constructor
        · show (t.rows.getD (j0 + 1 + k) default).ticker =
            (t.rows.getD j0 default).ticker
          exact (hticker (j0 + 1 + k) (by omega) (by omega)).trans htkj0.symm
        · show ((drColumn none (t.rows.map tickerClose)).getD (j0 + 1 + k)
            EVal.nan).isNum = true
          have hidx2 : j0 + 1 + k = (j0 + k) + 1 := by omega
          rw [hidx2, hdr (j0 + k) (by omega) (by omega)]
          rfl
    rw [compute_returns_cum_getD t hs i hi]
    have hP : ((List.range (i - j0 - 1 + 1)).map (fun k =>
        1 + ((((List.zipWith (fun r dv => (r.ticker, dv)) t.rows
          (drColumn none (t.rows.map tickerClose))).drop (j0 + 1)).getD k
            ("", EVal.nan)).2).toQ)).prod =
        ((List.range (i - j0)).map (fun k =>
          1 + ((t.rows.getD (j0 + k + 1) default).close /
               (t.rows.getD (j0 + k) default).close - 1))).prod := by
      have hrange : i - j0 - 1 + 1 = i - j0 := by omega
      rw [hrange]
      apply congrArg
      apply List.map_congr_left
      intro k hk
      have hklt : k < i - j0 := List.mem_range.mp hk
      have hdropk : ((List.zipWith (fun r dv => (r.ticker, dv)) t.rows
          (drColumn none (t.rows.map tickerClose))).drop (j0 + 1)).getD k
            ("", EVal.nan) =
          (List.zipWith (fun r dv => (r.ticker, dv)) t.rows
            (drColumn none (t.rows.map tickerClose))).getD (j0 + 1 + k)
            ("", EVal.nan) := by
        rw [List.getD_eq_getElem?_getD, List.getElem?_drop,
            List.getD_eq_getElem?_getD]
      rw [hdropk, pairList_getD t.rows (j0 + 1 + k) (by omega)]
      have hidx2 : j0 + 1 + k = (j0 + k) + 1 := by omega
      rw [hidx2, hdr (j0 + k) (by omega) (by omega)]
      rfl
    have htel : ((List.range (i - j0)).map (fun k =>
        1 + ((t.rows.getD (j0 + k + 1) default).close /
             (t.rows.getD (j0 + k) default).close - 1))).prod =
        (t.rows.getD i default).close / (t.rows.getD j0 default).close := by
      have hmape : ∀ k ∈ List.range (i - j0),
          1 + ((t.rows.getD (j0 + k + 1) default).close /
            (t.rows.getD (j0 + k) default).close - 1) =
          (t.rows.getD (j0 + k + 1) default).close /
            (t.rows.getD (j0 + k) default).close := by
        intro k _; ring
      rw [List.map_congr_left hmape]
      have htel0 := prod_div_telescope
        (fun k => (t.rows.getD (j0 + k) default).close) (i - j0)
        (fun k hk => hne (j0 + k) (by omega))
      simp only [show j0 + (i - j0) = i from by omega, Nat.add_zero] at htel0
      exact htel0
    refine ⟨1 * ((List.range (i - j0 - 1 + 1)).map (fun k =>
        1 + ((((List.zipWith (fun r dv => (r.ticker, dv)) t.rows
          (drColumn none (t.rows.map tickerClose))).drop (j0 + 1)).getD k
            ("", EVal.nan)).2).toQ)).prod - 1, hcell, ?_, ?_⟩
    · rw [hP]
      ring
    · rw [hP, htel]
      have hj0ne : (t.rows.getD j0 default).close ≠ 0 := hne j0 (by omega)
      rw [List.getD_eq_getElem?_getD] at hj0ne
      field_simp

/-- Three-row single-ticker demo table with closes 100, 101, 99. -/
def demoC4 : Table :=
  ⟨[{ date := 0, ticker := "X", open_ := 0, high := 0, low := 0, close := 100,
      volume := 0, daily_return := EVal.nan, cum_return := EVal.nan,
      vol_var := EVal.nan },
    { date := 1, ticker := "X", open_ := 0, high := 0, low := 0, close := 101,
      volume := 0, daily_return := EVal.nan, cum_return := EVal.nan,
      vol_var := EVal.nan },
    { date := 2, ticker := "X", open_ := 0, high := 0, low := 0, close := 99,
      volume := 0, daily_return := EVal.nan, cum_return := EVal.nan,
      vol_var := EVal.nan }], false, false, false⟩

/-- Witness for C4 at a concrete three-row table. -/
theorem compute_returns_cum_return_spec_witness :
    List.Sorted rowLE demoC4.rows ∧ (∀ r ∈ demoC4.rows, r.close ≠ 0) ∧
    2 < demoC4.rows.length ∧ runStart demoC4.rows 2 < 2 ∧
    (∃ c : ℚ,
      ((compute_returns demoC4).rows.getD 2 default).cum_return = EVal.num c ∧
      1 + c = ((List.range (2 - runStart demoC4.rows 2)).map (fun k =>
        1 + ((demoC4.rows.getD (runStart demoC4.rows 2 + k + 1) default).close /
             (demoC4.rows.getD (runStart demoC4.rows 2 + k) default).close -
               1))).prod ∧
      (demoC4.rows.getD (runStart demoC4.rows 2) default).close * (1 + c) =
        (demoC4.rows.getD 2 default).close) := by
  refine ⟨by decide, by decide, by decide, by decide, ?_⟩
  exact (compute_returns_cum_return_spec demoC4 (by decide) (by decide) 2
    (by decide)).2 (by decide)

/-! ### Rolling annualized volatility (`compute_volatility`) -/

/-- Sample variance with `ddof = 1` (what `rolling(window).std()` squares). -/
def sampleVar (xs : List ℚ) : ℚ :=
  ((xs.map fun x => (x - xs.sum / (xs.length : ℚ)) ^ 2).sum) / ((xs.length : ℚ) - 1)

/-- The reversed daily_return prefix of the ticker run ending at position
`j`: the trailing observations `rolling` may draw its window from. -/
def runRev (l : List (String × EVal)) : ℕ → List EVal
  | 0 => [(l.getD 0 ("", EVal.nan)).2]
  | j + 1 =>
    if (l.getD j ("", EVal.nan)).1 = (l.getD (j + 1) ("", EVal.nan)).1
    then (l.getD (j + 1) ("", EVal.nan)).2 :: runRev l j
    else [(l.getD (j + 1) ("", EVal.nan)).2]

/-- One cell of the grouped `rolling(window).std()` column, stored as the
sample *variance* of the window: pandas yields NaN when the run holds fewer
than `window` observations (`min_periods` defaults to `window`), when any
window slot is non-finite, or when `window < 2` (`ddof = 1`); otherwise the
sample standard deviation of the window.  The reported column value is
`sqrt(variance) * sqrt(252)` (`vol_wd_ann` below); `x ↦ √x * √252` is
nonnegative and maps NaN to NaN, so absence and nonnegativity transfer. -/
def rollCell (w : ℕ) (pre : List EVal) : EVal :=
  if pre.length < w ∨ w < 2 then EVal.nan
  else if (pre.take w).all EVal.isNum then
    EVal.num (sampleVar ((pre.take w).map EVal.toQ))
  else EVal.nan

/-- `df.groupby("ticker")["daily_return"].rolling(window).std()` over the
(ticker, daily_return) pair list: one `rollCell` per position. -/
def volColumn (w : ℕ) (l : List (String × EVal)) : List EVal :=
  (List.range l.length).map fun i => rollCell w (runRev l i)

/-- Column assignment `df["daily_return"] = d` (used when the column was
missing). -/
def setDRCells : List Row → List EVal → List Row
  | [], _ => []
  | r :: rs, d :: ds => { r with daily_return := d } :: setDRCells rs ds
  | rs, _ => rs

/-- Column assignment `df[f"vol_{window}d_ann"] = roll * sqrt(252)` (cells
store the rolling sample variance, see `rollCell`). -/
def setVolCells : List Row → List EVal → List Row
  | [], _ => []
  | r :: rs, v :: vs => { r with vol_var := v } :: setVolCells rs vs
  | rs, _ => rs

/-- `transform.compute_volatility`: sort by (ticker, date); if `daily_return`
is missing compute it exactly as `compute_returns` does and assign it; then
add the per-ticker rolling annualized-volatility column. -/
def compute_volatility (t : Table) (window : ℕ) : Table :=
  let s := sortRows t.rows
  let d := if t.has_daily_return then s.map (fun r => r.daily_return)
           else drColumn none (s.map tickerClose)
  let s1 := if t.has_daily_return then s else setDRCells s d
  let v := volColumn window (List.zipWith (fun r dv => (r.ticker, dv)) s d)
  { rows := setVolCells s1 v
    has_daily_return := true
    has_cum_return := t.has_cum_return
    has_vol := true }

/-- The reported `vol_{window}d_ann` value of a stored cell:
`std * sqrt(252)` as a real number, `none` for a NaN cell. -/
noncomputable def vol_wd_ann : EVal → Option ℝ
  | EVal.num v => some (Real.sqrt v * Real.sqrt 252)
  | _ => none

theorem setDRCells_length : ∀ (rs : List Row) (ds : List EVal),
    ds.length = rs.length → (setDRCells rs ds).length = rs.length := by
  intro rs
  induction rs with
  | nil => intro ds _; cases ds <;> rfl
  | cons r rest ih =>
    intro ds hd
    cases ds with
    | nil => simp at hd
    | cons d ds' =>
      simp only [setDRCells, List.length_cons]
      rw [ih ds' (by simpa using hd)]

theorem setDRCells_getD : ∀ (rs : List Row) (ds : List EVal) (i : ℕ),
    ds.length = rs.length → i < rs.length →
    (setDRCells rs ds).getD i default =
      { rs.getD i default with daily_return := ds.getD i EVal.nan } := by
  intro rs
  induction rs with
  | nil => intro ds i _ hi; simp at hi
  | cons r rest ih =>
    intro ds i hd hi
    cases ds with
    | nil => simp at hd
    | cons d ds' =>
      cases i with
      | zero => simp [setDRCells]
      | succ j =>
        simp only [setDRCells, List.getD_cons_succ]
        exact ih ds' j (by simpa using hd) (by simpa using hi)

theorem setVolCells_getD : ∀ (rs : List Row) (vs : List EVal) (i : ℕ),
    vs.length = rs.length → i < rs.length →
    (setVolCells rs vs).getD i default =
      { rs.getD i default with vol_var := vs.getD i EVal.nan } := by
  intro rs
  induction rs with
  | nil => intro vs i _ hi; simp at hi
  | cons r rest ih =>
    intro vs i hv hi
    cases vs with
    | nil => simp at hv
    | cons v vs' =>
      cases i with
      | zero => simp [setVolCells]
      | succ j =>
        simp only [setVolCells, List.getD_cons_succ]
        exact ih vs' j (by simpa using hv) (by simpa using hi)

theorem volColumn_length (w : ℕ) (l : List (String × EVal)) :
    (volColumn w l).length = l.length := by
  simp [volColumn]

theorem volColumn_getD (w : ℕ) (l : List (String × EVal)) (i : ℕ)
    (hi : i < l.length) :
    (volColumn w l).getD i EVal.nan = rollCell w (runRev l i) := by
  unfold volColumn
  rw [getD_map_of_lt _ (List.range l.length) i (by simpa using hi) 0]
  congr 1
  rw [List.getD_eq_getElem?_getD, List.getElem?_range hi]
  rfl

/-- The reversed run prefix over the (ticker, daily_return) pair list,
expressed through `runStart` on the underlying rows. -/
theorem runRev_spec (rows : List Row) : ∀ i, i < rows.length →
    runRev (List.zipWith (fun r dv => (r.ticker, dv)) rows
      (drColumn none (rows.map tickerClose))) i =
    (List.range (i - runStart rows i + 1)).map (fun k =>
      ((List.zipWith (fun r dv => (r.ticker, dv)) rows
        (drColumn none (rows.map tickerClose))).getD (i - k) ("", EVal.nan)).2) := by
  intro i
  induction i with
  | zero =>
    intro hi
    show runRev _ 0 = _
    rw [runRev]
    have h0 : (0 : ℕ) - runStart rows 0 + 1 = 1 := rfl
    rw [h0]
    simp [List.range_succ]
  | succ j ih =>
    intro hi
    have hj : j < rows.length := by omega
    by_cases hsame : (rows.getD j default).ticker = (rows.getD (j + 1) default).ticker
    · have hcond : ((List.zipWith (fun r dv => (r.ticker, dv)) rows
          (drColumn none (rows.map tickerClose))).getD j ("", EVal.nan)).1 =
          ((List.zipWith (fun r dv => (r.ticker, dv)) rows
            (drColumn none (rows.map tickerClose))).getD (j + 1) ("", EVal.nan)).1 := by
        rw [pairList_getD rows j hj, pairList_getD rows (j + 1) hi]
        exact hsame
      rw [runRev, if_pos hcond, ih hj,
          show runStart rows (j + 1) = runStart rows j from by
            rw [runStart, if_pos hsame]]
      have hrs := runStart_le rows j
      conv_rhs =>
        rw [show j + 1 - runStart rows j + 1 = (j - runStart rows j + 1) + 1 from by
          omega, List.range_succ_eq_map]
      simp only [List.map_cons, List.map_map]
      congr 1
      refine List.map_congr_left (fun k _ => ?_)
      have hsub : j + 1 - (k + 1) = j - k := by omega
      simp [Function.comp, hsub]
    · rw [runRev, if_neg (by
        rw [pairList_getD rows j hj, pairList_getD rows (j + 1) hi]
        exact hsame)]
      rw [show runStart rows (j + 1) = j + 1 from by rw [runStart, if_neg hsame]]
      rw [show j + 1 - (j + 1) + 1 = 1 from by omega]
      simp [List.range_succ]

/-- Inside a ticker run (position after the run start), the `pct_change`
column holds the finite return when closes are nonzero. -/
theorem run_dr_num (t : Table) (hc : ∀ r ∈ t.rows, r.close ≠ 0) (i k : ℕ)
    (hi : i < t.rows.length) (h1 : runStart t.rows i ≤ k) (h2 : k < i) :
    (drColumn none (t.rows.map tickerClose)).getD (k + 1) EVal.nan =
      EVal.num ((t.rows.getD (k + 1) default).close /
        (t.rows.getD k default).close - 1) := by
  have hne : (t.rows.getD k default).close ≠ 0 := by
    apply hc
    have hk : k < t.rows.length := by omega
    rw [List.getD_eq_getElem?_getD, List.getElem?_eq_getElem hk]
    exact List.getElem_mem hk
  refine drColumn_getD_run t.rows k (by omega) ?_ hne
  exact (ticker_eq_of_runStart_le t.rows i k h1 (by omega)).trans
    ((ticker_eq_of_runStart_le t.rows i (k + 1) (by omega) (by omega)).symm)

/-- C5: on a (ticker, date)-sorted table with positive closes whose
`daily_return` column — when present — is the grouped `pct_change` of
`close`, `compute_volatility t w` (the dashboard uses `w = 20`) marks
`daily_return` present, adding it exactly as `compute_returns` does when it
was missing; the annualized-volatility value of row `i` is absent while the
row's index within its ticker run is `< w` (the run's first row has no
return, and the next `w - 1` rows are the first `w - 1` defined-return
rows), and from run index `w` on it is a nonnegative real equal to the
sample standard deviation of the trailing `w` daily returns times
`sqrt 252`.  Both branches of the source are covered: a table still missing
the column, and a table already carrying it — in particular the pipeline's
only call site, `compute_volatility(compute_returns(df), 20)`, since
`compute_returns` output is sorted (`compute_returns_sorted`) and its
`daily_return` column is the grouped `pct_change` of its closes
(`compute_returns_daily_return_column`). -/
theorem compute_volatility_spec (t : Table) (w : ℕ) (hw : 2 ≤ w)
    (hs : List.Sorted rowLE t.rows)
    (hdr : t.has_daily_return = true →
      t.rows.map (fun r => r.daily_return) =
        drColumn none (t.rows.map tickerClose))
    (hc : ∀ r ∈ t.rows, 0 < r.close)
    (i : ℕ) (hi : i < t.rows.length) :
    (compute_volatility t w).has_daily_return = true ∧
    ((compute_volatility t w).rows.getD i default).daily_return =
      (drColumn none (t.rows.map tickerClose)).getD i EVal.nan ∧
    (i - runStart t.rows i < w →
      vol_wd_ann (((compute_volatility t w).rows.getD i default).vol_var) =
        none) ∧
    (w ≤ i - runStart t.rows i →
      ∃ x : ℝ,
        vol_wd_ann (((compute_volatility t w).rows.getD i default).vol_var) =
          some x ∧ 0 ≤ x ∧
        x = Real.sqrt (sampleVar ((List.range w).map (fun k =>
          (t.rows.getD (i - k) default).close /
            (t.rows.getD (i - k - 1) default).close - 1))) * Real.sqrt 252) := by
  have hsort : sortRows t.rows = t.rows := hs.insertionSort_eq
  have hcne : ∀ r ∈ t.rows, r.close ≠ 0 := fun r hr => (hc r hr).ne'
  have hdl : (drColumn none (t.rows.map tickerClose)).length = t.rows.length := by
    rw [drColumn_length]; simp
  have hzlen : (List.zipWith (fun r dv => (r.ticker, dv)) t.rows
      (drColumn none (t.rows.map tickerClose))).length = t.rows.length := by
    rw [List.length_zipWith, hdl]; simp
  have hrows : (compute_volatility t w).rows =
      setVolCells
        (if t.has_daily_return = true then t.rows
         else setDRCells t.rows (drColumn none (t.rows.map tickerClose)))
        (volColumn w (List.zipWith (fun r dv => (r.ticker, dv)) t.rows
          (drColumn none (t.rows.map tickerClose)))) := by
    unfold compute_volatility
    by_cases h : t.has_daily_return = true
    · rw [hsort]
      simp [h, hdr h]
    · rw [hsort]
      simp [h]
  have hs1len : (if t.has_daily_return = true then t.rows
      else setDRCells t.rows
        (drColumn none (t.rows.map tickerClose))).length = t.rows.length := by
    by_cases h : t.has_daily_return = true
    · rw [if_pos h]
    · rw [if_neg h]
      exact setDRCells_length _ _ hdl
  have hrow_i : (compute_volatility t w).rows.getD i default =
      { (if t.has_daily_return = true then t.rows
         else setDRCells t.rows
           (drColumn none (t.rows.map tickerClose))).getD i default with
          vol_var := (volColumn w (List.zipWith (fun r dv => (r.ticker, dv)) t.rows
            (drColumn none (t.rows.map tickerClose)))).getD i EVal.nan } := by
    rw [hrows, setVolCells_getD _ _ i (by rw [volColumn_length, hzlen, hs1len])
      (by rw [hs1len]; exact hi)]
  have hrow_dr : ((compute_volatility t w).rows.getD i default).daily_return =
      (drColumn none (t.rows.map tickerClose)).getD i EVal.nan := by
    rw [hrow_i]
    by_cases h : t.has_daily_return = true
    · rw [if_pos h]
      have hmap := getD_map_of_lt (fun r => r.daily_return) t.rows i hi default
        EVal.nan
      rw [hdr h] at hmap
      exact hmap.symm
    · rw [if_neg h, setDRCells_getD _ _ i hdl hi]
  have hrow_vol : ((compute_volatility t w).rows.getD i default).vol_var =
      (volColumn w (List.zipWith (fun r dv => (r.ticker, dv)) t.rows
        (drColumn none (t.rows.map tickerClose)))).getD i EVal.nan := by
    rw [hrow_i]
  have hvol_i : (volColumn w (List.zipWith (fun r dv => (r.ticker, dv)) t.rows
      (drColumn none (t.rows.map tickerClose)))).getD i EVal.nan =
      rollCell w (runRev (List.zipWith (fun r dv => (r.ticker, dv)) t.rows
        (drColumn none (t.rows.map tickerClose))) i) :=
    volColumn_getD w _ i (by rw [hzlen]; exact hi)
  have hrr := runRev_spec t.rows i hi
  obtain ⟨j0, hj0⟩ : ∃ j0, runStart t.rows i = j0 := ⟨_, rfl⟩
  rw [hj0] at hrr ⊢
  have hj0le : j0 ≤ i := by have := runStart_le t.rows i; omega
  have hrrlen : (runRev (List.zipWith (fun r dv => (r.ticker, dv)) t.rows
      (drColumn none (t.rows.map tickerClose))) i).length = i - j0 + 1 := by
    rw [hrr]; simp
  refine ⟨rfl, hrow_dr, ?_, ?_⟩
  · -- absent while run index < w
    intro hlt
    rw [hrow_vol, hvol_i]
    by_cases hshort : i - j0 + 1 < w
    · rw [rollCell, if_pos (Or.inl (by rw [hrrlen]; exact hshort))]
      rfl
    · -- run index is exactly w - 1: the window reaches the run head (NaN)
      have hgi : i - j0 + 1 = w := by omega
      rw [rollCell, if_neg (by rw [hrrlen]; omega)]
      have htake : (runRev (List.zipWith (fun r dv => (r.ticker, dv)) t.rows
          (drColumn none (t.rows.map tickerClose))) i).take w =
          runRev (List.zipWith (fun r dv => (r.ticker, dv)) t.rows
            (drColumn none (t.rows.map tickerClose))) i := by
        apply List.take_of_length_le
        rw [hrrlen]; omega
      have hnanmem : EVal.nan ∈ (runRev (List.zipWith (fun r dv => (r.ticker, dv))
          t.rows (drColumn none (t.rows.map tickerClose))) i).take w := by
        rw [htake, hrr]
        refine List.mem_map.mpr ⟨i - j0, List.mem_range.mpr (by omega), ?_⟩
        have hij0 : i - (i - j0) = j0 := by omega
        rw [hij0, pairList_getD t.rows j0 (by omega)]
        show (drColumn none (t.rows.map tickerClose)).getD j0 EVal.nan = EVal.nan
        have hb := runStart_boundary t.rows i
        rw [hj0] at hb
        exact drColumn_getD_boundary t.rows j0 (by omega) hb
      rw [if_neg ?_]
      · rfl
      · intro hall
        have := List.all_eq_true.mp hall EVal.nan hnanmem
        simp [EVal.isNum] at this
  · -- defined from run index w on
    intro hge
    rw [hrow_vol, hvol_i]
    have htake : (runRev (List.zipWith (fun r dv => (r.ticker, dv)) t.rows
        (drColumn none (t.rows.map tickerClose))) i).take w =
        (List.range w).map (fun k =>
          ((List.zipWith (fun r dv => (r.ticker, dv)) t.rows
            (drColumn none (t.rows.map tickerClose))).getD (i - k)
              ("", EVal.nan)).2) := by
      rw [hrr, ← List.map_take, List.take_range,
          Nat.min_eq_left (show w ≤ i - j0 + 1 by omega)]
    have hdrk : ∀ k, k < w →
        ((List.zipWith (fun r dv => (r.ticker, dv)) t.rows
          (drColumn none (t.rows.map tickerClose))).getD (i - k)
            ("", EVal.nan)).2 =
        EVal.num ((t.rows.getD (i - k) default).close /
          (t.rows.getD (i - k - 1) default).close - 1) := by
      intro k hk
      rw [pairList_getD t.rows (i - k) (by omega)]
      have hik : i - k = (i - k - 1) + 1 := by omega
      rw [hik]
      have := run_dr_num t hcne i (i - k - 1) hi (by rw [hj0]; omega) (by omega)
      rw [this]
      rfl
    have hql : (((runRev (List.zipWith (fun r dv => (r.ticker, dv)) t.rows
        (drColumn none (t.rows.map tickerClose))) i).take w).map EVal.toQ) =
        (List.range w).map (fun k =>
          (t.rows.getD (i - k) default).close /
            (t.rows.getD (i - k - 1) default).close - 1) := by
      rw [htake, List.map_map]
      refine List.map_congr_left (fun k hk => ?_)
      have hkw : k < w := List.mem_range.mp hk
      show EVal.toQ (((List.zipWith (fun r dv => (r.ticker, dv)) t.rows
        (drColumn none (t.rows.map tickerClose))).getD (i - k) ("", EVal.nan)).2) = _
      rw [hdrk k hkw]
      rfl
    rw [rollCell, if_neg (by rw [hrrlen]; omega), if_pos ?_]
    · rw [hql]
      exact ⟨Real.sqrt (sampleVar ((List.range w).map (fun k =>
        (t.rows.getD (i - k) default).close /
          (t.rows.getD (i - k - 1) default).close - 1))) * Real.sqrt 252, rfl,
        mul_nonneg (Real.sqrt_nonneg _) (Real.sqrt_nonneg _), rfl⟩
    · rw [htake]
      refine List.all_eq_true.mpr (fun x hx => ?_)
      obtain ⟨k, hk, hkx⟩ := List.mem_map.mp hx
      rw [← hkx, hdrk k (List.mem_range.mp hk)]
      rfl

/-- 25-row single-ticker demo table with constant close 100. -/
def demoC5 : Table :=
  ⟨(List.range 25).map (fun n =>
    { date := (n : Int), ticker := "X", open_ := 0, high := 0, low := 0,
      close := 100, volume := 0, daily_return := EVal.nan,
      cum_return := EVal.nan, vol_var := EVal.nan }), false, false, false⟩

/-- One-row demo table that already carries a `daily_return` column
consistent with its closes (as `compute_returns` output is). -/
def demoC5b : Table :=
  ⟨[{ date := 0, ticker := "X", open_ := 0, high := 0, low := 0, close := 100,
      volume := 0, daily_return := EVal.nan, cum_return := EVal.nan,
      vol_var := EVal.nan }], true, false, false⟩

/-- Witness for C5: the recompute branch at a concrete 25-row table missing
the `daily_return` column (window 20, defined-volatility conjunct), and the
present-column branch at a table already carrying a consistent column
(absent-volatility conjunct). -/
theorem compute_volatility_spec_witness :
    (2 ≤ 20 ∧ List.Sorted rowLE demoC5.rows ∧
      demoC5.has_daily_return = false ∧ (∀ r ∈ demoC5.rows, 0 < r.close) ∧
      24 < demoC5.rows.length ∧ 20 ≤ 24 - runStart demoC5.rows 24) ∧
    (∃ x : ℝ,
      vol_wd_ann (((compute_volatility demoC5 20).rows.getD 24 default).vol_var) =
        some x ∧ 0 ≤ x ∧
      x = Real.sqrt (sampleVar ((List.range 20).map (fun k =>
        (demoC5.rows.getD (24 - k) default).close /
          (demoC5.rows.getD (24 - k - 1) default).close - 1))) * Real.sqrt 252) ∧
    (demoC5b.has_daily_return = true ∧
      demoC5b.rows.map (fun r => r.daily_return) =
        drColumn none (demoC5b.rows.map tickerClose) ∧
      0 - runStart demoC5b.rows 0 < 20 ∧
      vol_wd_ann (((compute_volatility demoC5b 20).rows.getD 0 default).vol_var) =
        none) := by
  refine ⟨⟨by decide, by decide, by decide, by decide, by decide, by decide⟩,
    ?_, by decide, by decide, by decide, ?_⟩
  · exact (compute_volatility_spec demoC5 20 (by decide) (by decide)
      (fun h => absurd h (by decide)) (by decide) 24 (by decide)).2.2.2 (by decide)
  · exact (compute_volatility_spec demoC5b 20 (by decide) (by decide)
      (fun _ => by decide) (by decide) 0 (by decide)).2.2.1 (by decide)

/-! ### Idempotence and frame properties of the transforms -/

theorem setReturnCells_map {α : Type} (f : Row → α)
    (hf : ∀ (r : Row) (d c : EVal),
      f { r with daily_return := d, cum_return := c } = f r) :
    ∀ (rs : List Row) (ds cs : List EVal),
      (setReturnCells rs ds cs).map f = rs.map f := by
  intro rs
  induction rs with
  | nil => intro ds cs; cases ds <;> cases cs <;> rfl
  | cons r rest ih =>
    intro ds cs
    cases ds with
    | nil => rfl
    | cons d ds' =>
      cases cs with
      | nil => rfl
      | cons c cs' =>
        simp only [setReturnCells, List.map_cons]
        rw [hf, ih]

theorem setDRCells_map {α : Type} (f : Row → α)
    (hf : ∀ (r : Row) (d : EVal), f { r with daily_return := d } = f r) :
    ∀ (rs : List Row) (ds : List EVal), (setDRCells rs ds).map f = rs.map f := by
  intro rs
  induction rs with
  | nil => intro ds; cases ds <;> rfl
  | cons r rest ih =>
    intro ds
    cases ds with
    | nil => rfl
    | cons d ds' =>
      simp only [setDRCells, List.map_cons]
      rw [hf, ih]

theorem setVolCells_map {α : Type} (f : Row → α)
    (hf : ∀ (r : Row) (v : EVal), f { r with vol_var := v } = f r) :
    ∀ (rs : List Row) (vs : List EVal), (setVolCells rs vs).map f = rs.map f := by
  intro rs
  induction rs with
  | nil => intro vs; cases vs <;> rfl
  | cons r rest ih =>
    intro vs
    cases vs with
    | nil => rfl
    | cons v vs' =>
      simp only [setVolCells, List.map_cons]
      rw [hf, ih]

theorem setReturnCells_idem : ∀ (rs : List Row) (ds cs : List EVal),
    setReturnCells (setReturnCells rs ds cs) ds cs = setReturnCells rs ds cs := by
  intro rs
  induction rs with
  | nil => intro ds cs; cases ds <;> cases cs <;> rfl
  | cons r rest ih =>
    intro ds cs
    cases ds with
    | nil => rfl
    | cons d ds' =>
      cases cs with
      | nil => rfl
      | cons c cs' =>
        simp only [setReturnCells]
        rw [ih]

/-- The (ticker, date) sort key of a row. -/
def keyOf (r : Row) : String × Int := (r.ticker, r.date)

/-- The sort order on (ticker, date) keys. -/
def keyLE (p q : String × Int) : Prop :=
  strLT p.1 q.1 ∨ (p.1 = q.1 ∧ p.2 ≤ q.2)

theorem sorted_rowLE_iff (l : List Row) :
    List.Sorted rowLE l ↔ (l.map keyOf).Pairwise keyLE := by
  rw [List.pairwise_map]
  exact Iff.rfl

/-- Unfolding of `compute_returns` at the rows level. -/
theorem compute_returns_rows_eq (t : Table) :
    (compute_returns t).rows =
      setReturnCells (sortRows t.rows)
        (drColumn none ((sortRows t.rows).map tickerClose))
        (cumColumn none (EVal.num 1)
          (List.zipWith (fun r dv => (r.ticker, dv)) (sortRows t.rows)
            (drColumn none ((sortRows t.rows).map tickerClose)))) := rfl

/-- The output of `compute_returns` is sorted by (ticker, date). -/
theorem compute_returns_sorted (t : Table) :
    List.Sorted rowLE (compute_returns t).rows := by
  rw [compute_returns_rows_eq, sorted_rowLE_iff,
      setReturnCells_map keyOf (fun r d c => rfl), ← sorted_rowLE_iff]
  exact List.sorted_insertionSort rowLE t.rows

theorem setReturnCells_map_daily_return : ∀ (rs : List Row) (ds cs : List EVal),
    ds.length = rs.length → cs.length = rs.length →
    (setReturnCells rs ds cs).map (fun r => r.daily_return) = ds := by
  intro rs
  induction rs with
  | nil =>
    intro ds cs hd _
    cases ds with
    | nil => rfl
    | cons d ds' => simp at hd
  | cons r rest ih =>
    intro ds cs hd hc
    cases ds with
    | nil => simp at hd
    | cons d ds' =>
      cases cs with
      | nil => simp at hc
      | cons c cs' =>
        simp only [setReturnCells, List.map_cons]
        rw [ih ds' cs' (by simpa using hd) (by simpa using hc)]

/-- The `daily_return` column of `compute_returns` output is exactly the
grouped `pct_change` of its own `close` column.  Together with
`compute_returns_sorted`, this shows the pipeline's
`compute_volatility(compute_returns(df), 20)` call always satisfies the
sortedness and column-consistency hypotheses of the volatility
specification. -/
theorem compute_returns_daily_return_column (t : Table) :
    (compute_returns t).rows.map (fun r => r.daily_return) =
      drColumn none ((compute_returns t).rows.map tickerClose) := by
  rw [compute_returns_rows_eq,
      setReturnCells_map tickerClose (fun r d c => rfl)]
  exact setReturnCells_map_daily_return _ _ _
    (by rw [drColumn_length]; simp)
    (by rw [cumColumn_length, List.length_zipWith, drColumn_length]; simp)

theorem zipWith_ticker_congr (l1 : List Row) :
    ∀ (l2 : List Row) (d : List EVal),
    l1.map (fun r => r.ticker) = l2.map (fun r => r.ticker) →
    List.zipWith (fun r dv => (r.ticker, dv)) l1 d =
      List.zipWith (fun r dv => (r.ticker, dv)) l2 d := by
  induction l1 with
  | nil =>
    intro l2 d h
    cases l2 with
    | nil => rfl
    | cons b bs => simp at h
  | cons a as ih =>
    intro l2 d h
    cases l2 with
    | nil => simp at h
    | cons b bs =>
      cases d with
      | nil => rfl
      | cons dv ds =>
        simp only [List.map_cons, List.cons.injEq] at h
        simp only [List.zipWith]
        rw [h.1, ih bs ds h.2]

theorem tableExt {t1 t2 : Table} (h1 : t1.rows = t2.rows)
    (h2 : t1.has_daily_return = t2.has_daily_return)
    (h3 : t1.has_cum_return = t2.has_cum_return)
    (h4 : t1.has_vol = t2.has_vol) : t1 = t2 := by
  cases t1; cases t2; simp_all

/-- C9: `compute_returns` is idempotent — recomputing on an already-processed
table reproduces it exactly (the derived columns are a pure function of
`close` and the ticker grouping, and the re-sort is the identity on the
already-sorted output). -/
theorem compute_returns_idempotent (t : Table) :
    compute_returns (compute_returns t) = compute_returns t := by
  have hsorted : List.Sorted rowLE (compute_returns t).rows :=
    compute_returns_sorted t
  have hsort2 : sortRows (compute_returns t).rows = (compute_returns t).rows :=
    hsorted.insertionSort_eq
  have htc : (compute_returns t).rows.map tickerClose =
      (sortRows t.rows).map tickerClose := by
    rw [compute_returns_rows_eq]
    exact setReturnCells_map tickerClose (fun r d c => rfl) _ _ _
  have hticker1 : (compute_returns t).rows.map (fun r => r.ticker) =
      (sortRows t.rows).map (fun r => r.ticker) := by
    rw [compute_returns_rows_eq]
    exact setReturnCells_map (fun r => r.ticker) (fun r d c => rfl) _ _ _
  refine tableExt ?_ rfl rfl rfl
  rw [compute_returns_rows_eq (compute_returns t), hsort2, htc,
      zipWith_ticker_congr (compute_returns t).rows (sortRows t.rows) _ hticker1,
      compute_returns_rows_eq t]
  exact setReturnCells_idem _ _ _

/-- All columns of a row except the two that `compute_returns` (re)writes. -/
def coreR (r : Row) : Int × String × ℚ × ℚ × ℚ × ℚ × Int × EVal :=
  (r.date, r.ticker, r.open_, r.high, r.low, r.close, r.volume, r.vol_var)

/-- All columns of a row except the two that `compute_volatility` may
(re)write (`vol_var` always, `daily_return` when it was missing). -/
def coreV (r : Row) : Int × String × ℚ × ℚ × ℚ × ℚ × Int × EVal :=
  (r.date, r.ticker, r.open_, r.high, r.low, r.close, r.volume, r.cum_return)

/-- Unfolding of `compute_volatility` at the rows level. -/
theorem compute_volatility_rows_eq (t : Table) (w : ℕ) :
    (compute_volatility t w).rows =
      setVolCells
        (if t.has_daily_return then sortRows t.rows
         else setDRCells (sortRows t.rows)
           (drColumn none ((sortRows t.rows).map tickerClose)))
        (volColumn w (List.zipWith (fun r dv => (r.ticker, dv)) (sortRows t.rows)
          (if t.has_daily_return
           then (sortRows t.rows).map (fun r => r.daily_return)
           else drColumn none ((sortRows t.rows).map tickerClose)))) := by
  unfold compute_volatility
  by_cases h : t.has_daily_return <;> simp [h]

/-- C10: the transforms return tables whose pre-existing columns are
untouched: `compute_returns` preserves, row for row up to the (ticker, date)
re-sort, every column other than the `daily_return`/`cum_return` it writes,
and `compute_volatility` every column other than the volatility column it
writes (and it preserves `daily_return` too whenever that column was already
present); both preserve the number of rows.  Input tables themselves are
untouched, `compute_returns`/`compute_volatility` being pure functions in
this embedding, as the transforms build new frames from `.copy()`. -/
theorem transforms_preserve_input_columns (t : Table) (w : ℕ) :
    ((compute_returns t).rows.map coreR).Perm (t.rows.map coreR) ∧
    (compute_returns t).rows.length = t.rows.length ∧
    ((compute_volatility t w).rows.map coreV).Perm (t.rows.map coreV) ∧
    (compute_volatility t w).rows.length = t.rows.length ∧
    (t.has_daily_return = true →
      ((compute_volatility t w).rows.map
        (fun r => (coreV r, r.daily_return))).Perm
        (t.rows.map (fun r => (coreV r, r.daily_return)))) := by
  have hsortperm : (sortRows t.rows).Perm t.rows :=
    List.perm_insertionSort rowLE t.rows
  have hR : ((compute_returns t).rows.map coreR).Perm (t.rows.map coreR) := by
    rw [compute_returns_rows_eq,
        setReturnCells_map coreR (fun r d c => rfl)]
    exact hsortperm.map coreR
  have hVrows : ((compute_volatility t w).rows.map coreV).Perm
      (t.rows.map coreV) := by
    rw [compute_volatility_rows_eq,
        setVolCells_map coreV (fun r v => rfl)]
    by_cases h : t.has_daily_return
    · rw [if_pos h]
      exact hsortperm.map coreV
    · rw [if_neg h, setDRCells_map coreV (fun r d => rfl)]
      exact hsortperm.map coreV
  refine ⟨hR, ?_, hVrows, ?_, ?_⟩
  · have := hR.length_eq
    simpa using this
  · have := hVrows.length_eq
    simpa using this
  · intro h
    rw [compute_volatility_rows_eq,
        setVolCells_map (fun r => (coreV r, r.daily_return)) (fun r v => rfl),
        if_pos (by rw [h] : t.has_daily_return = true)]
    exact hsortperm.map _

/-- Two-row demo table that already has a `daily_return` column. -/
def demoC10 : Table :=
  ⟨[{ date := 0, ticker := "B", open_ := 1, high := 2, low := 3, close := 0,
      volume := 7, daily_return := EVal.num 0, cum_return := EVal.nan,
      vol_var := EVal.nan },
    { date := 1, ticker := "B", open_ := 4, high := 5, low := 6, close := 0,
      volume := 8, daily_return := EVal.num 0, cum_return := EVal.nan,
      vol_var := EVal.nan }], true, false, false⟩

/-- Witness for C10 at a concrete two-row table. -/
theorem transforms_preserve_input_columns_witness :
    demoC10.has_daily_return = true ∧
    ((compute_returns demoC10).rows.map coreR).Perm (demoC10.rows.map coreR) ∧
    ((compute_volatility demoC10 2).rows.map
      (fun r => (coreV r, r.daily_return))).Perm
      (demoC10.rows.map (fun r => (coreV r, r.daily_return))) :=
  ⟨rfl, (transforms_preserve_input_columns demoC10 2).1,
    (transforms_preserve_input_columns demoC10 2).2.2.2.2 rfl⟩

/-! ### The fetch adapter (`fetch.download_history_tidy`) -/

/-- One raw bar of a provider frame (values of columns the frame actually
lacks are junk and never selected). -/
structure ProvRow : Type where
  date : Int
  open_ : ℚ
  high : ℚ
  low : ℚ
  close : ℚ
  volume : Int
deriving DecidableEq

/-- A provider frame after `_normalize_columns`: which of the canonical
columns `date, open, high, low, close, volume` are present, plus the rows.
This models `_normalize_columns(yf.Ticker(t).history(...))`; the mapping of
`adj_close` to `close` and the index promotion happen inside it. -/
structure ProvFrame : Type where
  has_date : Bool
  has_open : Bool
  has_high : Bool
  has_low : Bool
  has_close : Bool
  has_volume : Bool
  rows : List ProvRow
deriving DecidableEq

/-- `keep = [c for c in ["date", "open", ...] if c in norm.columns]`; the
ticker is skipped (`continue`) exactly when `keep` is empty. -/
def keepEmpty (f : ProvFrame) : Bool :=
  !(f.has_date || f.has_open || f.has_high || f.has_low || f.has_close ||
    f.has_volume)

/-- A row of the concatenated tidy frame: selected columns only (`none`
models a column the block lacked, NaN/NaT after `pd.concat`). -/
structure FRow : Type where
  date : Option Int
  ticker : String
  open_ : Option ℚ
  high : Option ℚ
  low : Option ℚ
  close : Option ℚ
  volume : Option Int
deriving DecidableEq

/-- `block = norm[keep].copy(); block["ticker"] = t`. -/
def blockOf (t : String) (f : ProvFrame) : List FRow :=
  f.rows.map fun r =>
    { date := if f.has_date then some r.date else none
      ticker := t
      open_ := if f.has_open then some r.open_ else none
      high := if f.has_high then some r.high else none
      low := if f.has_low then some r.low else none
      close := if f.has_close then some r.close else none
      volume := if f.has_volume then some r.volume else none }

/-- Date order used by the final sort: missing dates (NaT) sort last. -/
def dateLE : Option Int → Option Int → Prop
  | some a, some b => a ≤ b
  | some _, none => True
  | none, some _ => False
  | none, none => True

instance : DecidableRel dateLE := fun x y =>
  match x, y with
  | some a, some b => inferInstanceAs (Decidable (a ≤ b))
  | some _, none => inferInstanceAs (Decidable True)
  | none, some _ => inferInstanceAs (Decidable False)
  | none, none => inferInstanceAs (Decidable True)

/-- The key order of `df.sort_values(["ticker", "date"])` on the
concatenated frame. -/
def fle (a b : FRow) : Prop :=
  strLT a.ticker b.ticker ∨ (a.ticker = b.ticker ∧ dateLE a.date b.date)

instance : DecidableRel fle := fun a b => by
  unfold fle; infer_instance

theorem dateLE_total : ∀ x y : Option Int, dateLE x y ∨ dateLE y x := by
  intro x y
  cases x <;> cases y <;> simp [dateLE]
  exact le_total _ _

theorem dateLE_trans : ∀ x y z : Option Int,
    dateLE x y → dateLE y z → dateLE x z := by
  intro x y z h1 h2
  cases x <;> cases y <;> cases z <;> simp_all [dateLE]
  omega

instance : IsTotal FRow fle := by
  constructor
  intro a b
  rcases strLT_trichotomy a.ticker b.ticker with h | h | h
  · exact Or.inl (Or.inl h)
  · rcases dateLE_total a.date b.date with hd | hd
    · exact Or.inl (Or.inr ⟨h, hd⟩)
    · exact Or.inr (Or.inr ⟨h.symm, hd⟩)
  · exact Or.inr (Or.inl h)

instance : IsTrans FRow fle := by
  constructor
  intro a b c hab hbc
  rcases hab with h1 | ⟨h1, d1⟩
  · rcases hbc with h2 | ⟨h2, _⟩
    · exact Or.inl (listLT_trans _ _ _ h1 h2)
    · exact Or.inl (h2 ▸ h1)
  · rcases hbc with h2 | ⟨h2, d2⟩
    · exact Or.inl (h1 ▸ h2)
    · exact Or.inr ⟨h1.trans h2, dateLE_trans _ _ _ d1 d2⟩

/-- `fetch.download_history_tidy`, with the provider
(`yf.Ticker(t).history` composed with `_normalize_columns`) abstracted as a
function from ticker to normalized frame.  Mirrors the source: a ticker
whose frame offers none of the recognized columns is skipped; if every
ticker was skipped a `RuntimeError` is raised; otherwise the kept blocks
are concatenated, tagged with their ticker, and sorted by (ticker, date). -/
def download_history_tidy (provider : String → ProvFrame)
    (tickers : List String) : Except String (List FRow) :=
  let frames := tickers.filterMap fun t =>
    let f := provider t
    if keepEmpty f then none else some (blockOf t f)
  if frames = [] then
    Except.error ("No data returned from yfinance. Check tickers/period/interval.")
  else
    Except.ok ((frames.flatten).insertionSort fle)

/-- Unfolding of `download_history_tidy`. -/
theorem download_history_tidy_eq (provider : String → ProvFrame)
    (tickers : List String) :
    download_history_tidy provider tickers =
      (if (tickers.filterMap fun t =>
          if keepEmpty (provider t) then none
          else some (blockOf t (provider t))) = [] then
        Except.error
          ("No data returned from yfinance. Check tickers/period/interval.")
      else Except.ok (((tickers.filterMap fun t =>
          if keepEmpty (provider t) then none
          else some (blockOf t (provider t))).flatten).insertionSort fle)) := rfl

/-- C2 amended: the fetch raises its "no data" `RuntimeError` iff every
requested ticker's normalized frame offers none of the recognized columns;
skipped tickers are simply absent from the concatenation, and every kept
ticker contributes exactly its block of rows — in particular a ticker whose
frame has recognized columns but zero rows contributes zero rows, and when
all tickers are like that the function returns an empty table without
error. -/
theorem download_history_tidy_spec (provider : String → ProvFrame)
    (tickers : List String) :
    ((∃ msg, download_history_tidy provider tickers = Except.error msg) ↔
      ∀ t ∈ tickers, keepEmpty (provider t) = true) ∧
    (∀ res, download_history_tidy provider tickers = Except.ok res →
      res.Perm ((tickers.filterMap fun t =>
        if keepEmpty (provider t) then none
        else some (blockOf t (provider t))).flatten)) := by
  constructor
  · constructor
    · rintro ⟨msg, hmsg⟩
      rw [download_history_tidy_eq] at hmsg
      by_cases h : (tickers.filterMap fun t =>
          if keepEmpty (provider t) then none
          else some (blockOf t (provider t))) = []
      · intro t ht
        have hnone := (List.filterMap_eq_nil_iff.mp h) t ht
        by_cases hk : keepEmpty (provider t) = true
        · exact hk
        · rw [if_neg hk] at hnone
          exact absurd hnone (by simp)
      · rw [if_neg h] at hmsg
        exact absurd hmsg (by simp)
    · intro hall
      have hcond : (tickers.filterMap fun t =>
          if keepEmpty (provider t) then none
          else some (blockOf t (provider t))) = [] :=
        List.filterMap_eq_nil_iff.mpr (fun t ht => by rw [if_pos (hall t ht)])
      exact ⟨_, by rw [download_history_tidy_eq, if_pos hcond]⟩
  · intro res hres
    rw [download_history_tidy_eq] at hres
    by_cases h : (tickers.filterMap fun t =>
        if keepEmpty (provider t) then none
        else some (blockOf t (provider t))) = []
    · rw [if_pos h] at hres
      exact absurd hres (by simp)
    · rw [if_neg h] at hres
      rw [← Except.ok.inj hres]
      exact List.perm_insertionSort fle _

/-- A normalized frame with all recognized columns and zero rows (what
yfinance hands back for an unknown symbol). -/
def emptyBarsFrame : ProvFrame := ⟨true, true, true, true, true, true, []⟩

/-- C2 counterexample: a single requested ticker yields zero rows (with the
usual columns), yet `download_history_tidy` raises nothing and silently
returns an empty table — the claimed "error iff every ticker yields zero
rows" is false. -/
theorem download_all_empty_no_error_cex :
    (emptyBarsFrame).rows.length = 0 ∧
    download_history_tidy (fun _ => emptyBarsFrame) ["AAPL"] =
      Except.ok [] := by
  constructor
  · rfl
  · rfl

/-- Provider for the C2 witness: "AAPL" has one bar, anything else has no
recognized columns. -/
def providerW : String → ProvFrame := fun t =>
  if t = "AAPL" then ⟨true, true, true, true, true, true, [⟨0, 1, 2, 3, 4, 5⟩]⟩
  else ⟨false, false, false, false, false, false, []⟩

/-- The tidy result of fetching ["AAPL", "BAD"] through `providerW`. -/
def resW : List FRow :=
  [⟨some 0, "AAPL", some 1, some 2, some 3, some 4, some 5⟩]

/-- Witness for the amended C2: a request where every ticker is column-less
errors, and a mixed request returns exactly the kept ticker's block. -/
theorem download_history_tidy_spec_witness :
    ((∀ t ∈ ["BAD"], keepEmpty (providerW t) = true) ∧
      (∃ msg, download_history_tidy providerW ["BAD"] = Except.error msg)) ∧
    (download_history_tidy providerW ["AAPL", "BAD"] = Except.ok resW ∧
      resW.Perm ((["AAPL", "BAD"].filterMap fun t =>
        if keepEmpty (providerW t) then none
        else some (blockOf t (providerW t))).flatten)) := by
  refine ⟨⟨by decide, ?_⟩, ⟨by rfl, ?_⟩⟩
  · exact (download_history_tidy_spec providerW ["BAD"]).1.mpr (by decide)
  · exact (download_history_tidy_spec providerW ["AAPL", "BAD"]).2 resW (by rfl)

/-- A normalized frame with one bar. -/
def dupBarFrame : ProvFrame := ⟨true, true, true, true, true, true, [⟨0, 1, 2, 3, 4, 5⟩]⟩

/-- The tidy row that bar produces for ticker "AAPL". -/
def rdup : FRow := ⟨some 0, "AAPL", some 1, some 2, some 3, some 4, some 5⟩

/-- C8 counterexample: requesting the same ticker twice fetches it twice and
concatenates, so the "successful fetch" result carries a duplicate
(ticker, date) pair — the code never deduplicates. -/
theorem download_duplicate_pairs_cex :
    download_history_tidy (fun _ => dupBarFrame) ["AAPL", "AAPL"] =
      Except.ok [rdup, rdup] ∧
    ¬ (([rdup, rdup]).map (fun r => (r.ticker, r.date))).Nodup := by
  exact ⟨rfl, by decide⟩

theorem listLT_irrefl : ∀ x : List Char, listLT x x = false := by
  intro x
  induction x with
  | nil => rfl
  | cons a as ih => simp [listLT, ih]

/-- The (ticker, date) key of a tidy fetched row. -/
def keyF (r : FRow) : String × Option Int := (r.ticker, r.date)

/-- Keys of the concatenated blocks are pairwise distinct when tickers are
distinct and each frame has strictly increasing dates; every key's ticker
comes from the request list. -/
theorem flatten_keys_nodup (provider : String → ProvFrame) :
    ∀ (tickers : List String), tickers.Nodup →
    (∀ t ∈ tickers, (provider t).has_date = true ∧
      ((provider t).rows.map (fun r => r.date)).Pairwise (· < ·)) →
    (((tickers.filterMap fun t =>
        if keepEmpty (provider t) then none
        else some (blockOf t (provider t))).flatten).map keyF).Nodup ∧
    (∀ p ∈ ((tickers.filterMap fun t =>
        if keepEmpty (provider t) then none
        else some (blockOf t (provider t))).flatten).map keyF,
      p.1 ∈ tickers) := by
  intro tickers
  induction tickers with
  | nil =>
    intro _ _
    exact ⟨by simp, by simp⟩
  | cons t rest ih =>
    intro hnd hd
    have hndr : rest.Nodup := (List.nodup_cons.mp hnd).2
    have htnr : t ∉ rest := (List.nodup_cons.mp hnd).1
    obtain ⟨ihn, ihm⟩ := ih hndr (fun t' ht' => hd t' (by simp [ht']))
    by_cases hk : keepEmpty (provider t) = true
    · rw [List.filterMap_cons_none (by rw [if_pos hk])]
      exact ⟨ihn, fun p hp => List.mem_cons_of_mem _ (ihm p hp)⟩
    · rw [List.filterMap_cons_some (by rw [if_neg hk])]
      rw [List.flatten_cons, List.map_append]
      have hkeyblock : (blockOf t (provider t)).map keyF =
          ((provider t).rows.map (fun r => r.date)).map (fun d => (t, some d)) := by
        obtain ⟨hdt, _⟩ := hd t (by simp)
        unfold blockOf keyF
        rw [List.map_map, List.map_map]
        refine List.map_congr_left (fun r hr => ?_)
        simp [hdt]
      constructor
      · rw [List.nodup_append]
        refine ⟨?_, ihn, ?_⟩
        · rw [hkeyblock]
          apply List.Nodup.map
          · intro d1 d2 h12
            simpa using h12
          · obtain ⟨_, hpw⟩ := hd t (by simp)
            exact hpw.imp ne_of_lt
        · intro p hp hp2
          have h1 : p.1 = t := by
            rw [hkeyblock] at hp
            obtain ⟨d, _, hdp⟩ := List.mem_map.mp hp
            rw [← hdp]
          have h2 : p.1 ∈ rest := ihm p hp2
          rw [h1] at h2
          exact htnr h2
      · intro p hp
        rcases List.mem_append.mp hp with hp | hp
        · rw [hkeyblock] at hp
          obtain ⟨d, _, hdp⟩ := List.mem_map.mp hp
          rw [← hdp]
          exact List.mem_cons_self _ _
        · exact List.mem_cons_of_mem _ (ihm p hp)

/-- C8 amended: a successful fetch is sorted by (ticker, date); when the
requested tickers are pairwise distinct and every frame has a date column
with strictly increasing dates, the result additionally has no duplicate
(ticker, date) pairs, and is therefore strictly increasing by date within
each ticker group (last conjunct).  Without those assumptions only the
sortedness holds — requesting a ticker twice yields duplicate pairs. -/
theorem download_history_tidy_sorted_spec (provider : String → ProvFrame)
    (tickers : List String) (res : List FRow)
    (hok : download_history_tidy provider tickers = Except.ok res)
    (hnd : tickers.Nodup)
    (hdates : ∀ t ∈ tickers, (provider t).has_date = true ∧
      ((provider t).rows.map (fun r => r.date)).Pairwise (· < ·)) :
    List.Sorted fle res ∧ (res.map keyF).Nodup ∧
    res.Pairwise (fun a b => a.ticker = b.ticker →
      dateLE a.date b.date ∧ a.date ≠ b.date) := by
  rw [download_history_tidy_eq] at hok
  by_cases h : (tickers.filterMap fun t =>
      if keepEmpty (provider t) then none
      else some (blockOf t (provider t))) = []
  · rw [if_pos h] at hok
    exact absurd hok (by simp)
  · rw [if_neg h] at hok
    have hres : res = ((tickers.filterMap fun t =>
        if keepEmpty (provider t) then none
        else some (blockOf t (provider t))).flatten).insertionSort fle :=
      (Except.ok.inj hok).symm
    have hsorted : List.Sorted fle res := by
      rw [hres]; exact List.sorted_insertionSort fle _
    have hnodup : (res.map keyF).Nodup := by
      rw [hres]
      have hperm := (List.perm_insertionSort fle ((tickers.filterMap fun t =>
        if keepEmpty (provider t) then none
        else some (blockOf t (provider t))).flatten)).map keyF
      rw [hperm.nodup_iff]
      exact (flatten_keys_nodup provider tickers hnd hdates).1
    refine ⟨hsorted, hnodup, ?_⟩
    have hpw2 : res.Pairwise (fun a b => keyF a ≠ keyF b) := by
      rw [← List.pairwise_map]
      exact hnodup
    refine (hsorted.and hpw2).imp ?_
    rintro a b ⟨hf, hne⟩ hticker
    constructor
    · rcases hf with hlt | ⟨_, hle⟩
      · exfalso
        rw [hticker] at hlt
        unfold strLT at hlt
        rw [listLT_irrefl] at hlt
        exact Bool.noConfusion hlt
      · exact hle
    · intro hdate
      apply hne
      unfold keyF
      rw [hticker, hdate]

/-- Provider for the C8 witness: every ticker has two bars at dates 0 < 1. -/
def providerC8 : String → ProvFrame := fun _ =>
  ⟨true, true, true, true, true, true, [⟨0, 1, 2, 3, 4, 5⟩, ⟨1, 1, 2, 3, 4, 5⟩]⟩

/-- The tidy result of fetching ["AAPL", "MSFT"] through `providerC8`. -/
def resC8 : List FRow :=
  [⟨some 0, "AAPL", some 1, some 2, some 3, some 4, some 5⟩,
   ⟨some 1, "AAPL", some 1, some 2, some 3, some 4, some 5⟩,
   ⟨some 0, "MSFT", some 1, some 2, some 3, some 4, some 5⟩,
   ⟨some 1, "MSFT", some 1, some 2, some 3, some 4, some 5⟩]

/-- Witness for the amended C8 at a concrete two-ticker fetch. -/
theorem download_history_tidy_sorted_spec_witness :
    (download_history_tidy providerC8 ["AAPL", "MSFT"] = Except.ok resC8 ∧
     (["AAPL", "MSFT"] : List String).Nodup ∧
     (∀ t ∈ ["AAPL", "MSFT"], (providerC8 t).has_date = true ∧
       ((providerC8 t).rows.map (fun r => r.date)).Pairwise (· < ·))) ∧
    (List.Sorted fle resC8 ∧ (resC8.map keyF).Nodup ∧
     resC8.Pairwise (fun a b => a.ticker = b.ticker →
       dateLE a.date b.date ∧ a.date ≠ b.date)) := by
  refine ⟨⟨by rfl, by decide, by decide⟩, ?_⟩
  exact download_history_tidy_sorted_spec providerC8 ["AAPL", "MSFT"] resC8
    (by rfl) (by decide) (by decide)

/-! ### The query cache (`callbacks._cached_fetch`) -/

/-- The `maxsize=64` capacity of the `lru_cache` on `_cached_fetch`. -/
def maxsize : ℕ := 64

/-- The cache state behind `@lru_cache(maxsize=64)`, most recently used
entry first.  This embeds the documented `functools.lru_cache` semantics
(stdlib code, not part of this repository): a hit moves the entry to the
front; a miss inserts at the front and drops the least recently used entry
once past capacity. -/
structure LruCache (K V : Type) : Type where
  entries : List (K × V)
deriving DecidableEq

/-- Cache lookup (no recency update). -/
def LruCache.lookup {K V : Type} [DecidableEq K] (c : LruCache K V) (k : K) :
    Option V :=
  (c.entries.find? (fun e => decide (e.1 = k))).map (fun e => e.2)

/-- Refresh an entry's recency on a hit. -/
def LruCache.touch {K V : Type} [DecidableEq K] (c : LruCache K V) (k : K) :
    LruCache K V :=
  match c.entries.find? (fun e => decide (e.1 = k)) with
  | none => c
  | some e => ⟨e :: c.entries.eraseP (fun e => decide (e.1 = k))⟩

/-- Insert a fresh entry at the most-recent slot, evicting past capacity. -/
def LruCache.insert {K V : Type} [DecidableEq K] (c : LruCache K V) (k : K)
    (v : V) : LruCache K V :=
  ⟨((k, v) :: c.entries).take maxsize⟩

/-- One `_cached_fetch(tickers_key, interval)` call against the cache: a hit
returns the stored frame and refreshes its recency; a miss runs the pipeline
(fetch + `compute_returns` + `compute_volatility`), stores and returns it. -/
def getOrCompute {K V : Type} [DecidableEq K] (c : LruCache K V) (k : K)
    (compute : V) : V × LruCache K V :=
  match c.lookup k with
  | some v => (v, c.touch k)
  | none => (compute, c.insert k compute)

/-- The key `update_main` builds before calling `_cached_fetch`:
`",".join(tickers)` — the tickers joined in selection order, not sorted. -/
def tickersKey (tickers : List String) : String :=
  String.intercalate "," tickers

/-- C1 counterexample: the two selection orders of the set {AAPL, MSFT}
produce different keys, and running the two calls against an empty cache
creates two distinct entries for the same effective query. -/
theorem cache_key_order_dependent_cex :
    tickersKey ["AAPL", "MSFT"] ≠ tickersKey ["MSFT", "AAPL"] ∧
    (["AAPL", "MSFT"] : List String).toFinset =
      (["MSFT", "AAPL"] : List String).toFinset ∧
    ((getOrCompute (getOrCompute (⟨[]⟩ : LruCache (String × String) ℕ)
        (tickersKey ["AAPL", "MSFT"], "1d") 1).2
        (tickersKey ["MSFT", "AAPL"], "1d") 2).2).entries.length = 2 ∧
    (getOrCompute (getOrCompute (⟨[]⟩ : LruCache (String × String) ℕ)
        (tickersKey ["AAPL", "MSFT"], "1d") 1).2
        (tickersKey ["MSFT", "AAPL"], "1d") 2).1 = 2 := by
  refine ⟨by decide, by decide, by decide, by decide⟩

/-- C1 amended: the cache key is the comma-join of the tickers in selection
order plus the interval: equal ticker sequences (with equal interval) address
the same cache entry, and two requests address the same entry exactly when
their joined ticker strings coincide — reordering a ticker set changes the
key and addresses a distinct entry. -/
theorem cache_key_spec (t1 t2 : List String) (iv : String) (v1 : ℕ) :
    (t1 = t2 → tickersKey t1 = tickersKey t2) ∧
    ((LruCache.insert (⟨[]⟩ : LruCache (String × String) ℕ)
        (tickersKey t1, iv) v1).lookup (tickersKey t2, iv) = some v1 ↔
      tickersKey t1 = tickersKey t2) := by
  constructor
  · intro h; rw [h]
  · unfold LruCache.insert LruCache.lookup maxsize
    by_cases h : tickersKey t1 = tickersKey t2
    · simp [List.find?, List.take, h]
    · simp [List.find?, List.take, Prod.ext_iff, h]

/-- C7: the `lru_cache(maxsize=64)` behind `_cached_fetch` never holds more
than 64 entries; a miss on a full cache evicts exactly the least recently
used entry (the result keeps the remaining 63 entries behind the new one,
dropping only the last), and a hit refreshes recency, so an entry just read
survives the next eviction. -/
theorem lru_cache_spec (c : LruCache (String × String) ℕ)
    (k k' : String × String) (v v' : ℕ)
    (hlen : c.entries.length ≤ 64) :
    ((getOrCompute c k v).2.entries.length ≤ 64) ∧
    (c.entries.length = 64 → c.lookup k = none →
      (getOrCompute c k v).2.entries = (k, v) :: c.entries.dropLast) ∧
    (∀ w, c.lookup k = some w → c.entries.length = 64 → k' ≠ k →
      c.lookup k' = none →
      k ∈ ((getOrCompute (getOrCompute c k v).2 k' v').2.entries.map
        (fun e => e.1))) := by
  refine ⟨?_, ?_, ?_⟩
  · -- capacity bound
    cases hl : c.lookup k with
    | some w =>
      simp only [getOrCompute, hl]
      unfold LruCache.lookup at hl
      cases hf : c.entries.find? (fun e => decide (e.1 = k)) with
      | none =>
        simp [LruCache.touch, hf, hlen]
      | some e =>
        have hmem : e ∈ c.entries := List.mem_of_find?_eq_some hf
        simp only [LruCache.touch, hf, List.length_cons]
        rw [List.length_eraseP_of_mem hmem (List.find?_some hf)]
        have h1 : 1 ≤ c.entries.length :=
          List.length_pos.mpr (List.ne_nil_of_mem hmem)
        omega
    | none =>
      simp only [getOrCompute, hl]
      unfold LruCache.insert maxsize
      simp only [List.length_take]
      omega
  · -- eviction of the least recently used entry
    intro h64 hnone
    simp only [getOrCompute, hnone]
    unfold LruCache.insert maxsize
    rw [show (64 : ℕ) = 63 + 1 from rfl, List.take_succ_cons]
    congr 1
    conv_rhs => rw [List.dropLast_eq_take, h64]
  · -- a read entry survives the next eviction
    intro w hw h64 hk' hk'none
    unfold LruCache.lookup at hw
    cases hf : c.entries.find? (fun e => decide (e.1 = k)) with
    | none =>
      rw [hf] at hw
      exact absurd hw (by simp)
    | some e =>
      rw [hf] at hw
      have he1 : e.1 = k := by
        have hpe := List.find?_some hf
        simpa using hpe
      have hmem : e ∈ c.entries := List.mem_of_find?_eq_some hf
      have hstep1 : (getOrCompute c k v).2 = LruCache.touch c k := by
        simp [getOrCompute, LruCache.lookup, hf]
      have htouch : (LruCache.touch c k).entries =
          e :: c.entries.eraseP (fun e => decide (e.1 = k)) := by
        simp [LruCache.touch, hf]
      have hfind2 : c.entries.find? (fun e => decide (e.1 = k')) = none := by
        unfold LruCache.lookup at hk'none
        cases hf2 : c.entries.find? (fun e => decide (e.1 = k')) with
        | none => rfl
        | some e2 => rw [hf2] at hk'none; exact absurd hk'none (by simp)
      have hlookup2 : (LruCache.touch c k).lookup k' = none := by
        unfold LruCache.lookup
        rw [htouch]
        have hfnone : ((e :: c.entries.eraseP
            (fun e => decide (e.1 = k))).find? (fun e => decide (e.1 = k'))) =
            none := by
          refine List.find?_eq_none.mpr (fun x hx => ?_)
          rcases List.mem_cons.mp hx with hx | hx
          · subst hx
            rw [he1]
            simp only [decide_eq_true_eq]
            exact fun hh => hk' hh.symm
          · have hxmem : x ∈ c.entries := (List.eraseP_sublist _).subset hx
            exact List.find?_eq_none.mp hfind2 x hxmem
        rw [hfnone]
        rfl
      rw [hstep1]
      simp only [getOrCompute, hlookup2]
      unfold LruCache.insert maxsize
      rw [htouch]
      rw [show (64 : ℕ) = 63 + 1 from rfl, List.take_succ_cons,
          show (63 : ℕ) = 62 + 1 from rfl, List.take_succ_cons]
      simp [he1]

/-- Witness for the amended C1: an identical ticker sequence reuses the
stored entry. -/
theorem cache_key_spec_witness :
    tickersKey ["AAPL", "MSFT"] = tickersKey ["AAPL", "MSFT"] ∧
    (LruCache.insert (⟨[]⟩ : LruCache (String × String) ℕ)
        (tickersKey ["AAPL", "MSFT"], "1d") 7).lookup
        (tickersKey ["AAPL", "MSFT"], "1d") = some 7 :=
  ⟨(cache_key_spec ["AAPL", "MSFT"] ["AAPL", "MSFT"] "1d" 7).1 rfl,
    (cache_key_spec ["AAPL", "MSFT"] ["AAPL", "MSFT"] "1d" 7).2.mpr rfl⟩

/-- A full 64-entry cache (all entries keyed ("T", "1d"); the front one holds
value 0). -/
def cacheW : LruCache (String × String) ℕ :=
  ⟨(List.range 64).map (fun n => (("T", "1d"), n))⟩

/-- Witness for C7 at a concrete full cache. -/
theorem lru_cache_spec_witness :
    (cacheW.entries.length ≤ 64 ∧ cacheW.entries.length = 64 ∧
      cacheW.lookup ("A", "1d") = none ∧
      cacheW.lookup ("T", "1d") = some 0 ∧
      (("A", "1d") : String × String) ≠ ("T", "1d")) ∧
    (getOrCompute cacheW ("A", "1d") 99).2.entries =
      ((("A", "1d"), 99)) :: cacheW.entries.dropLast ∧
    ("T", "1d") ∈ ((getOrCompute (getOrCompute cacheW ("T", "1d") 99).2
      ("A", "1d") 100).2.entries.map (fun e => e.1)) := by
  refine ⟨⟨by decide, by decide, by decide, by decide, by decide⟩, ?_, ?_⟩
  · exact (lru_cache_spec cacheW ("A", "1d") ("X", "1d") 99 0 (by decide)).2.1
      (by decide) (by decide)
  · exact (lru_cache_spec cacheW ("T", "1d") ("A", "1d") 99 100
      (by decide)).2.2 0 (by decide) (by decide) (by decide) (by decide)
